import Mathlib

/-!
Verification of the task-graph engine (`workflow/tasks/graph.py`).

This file embeds the core of `TaskGraph` as executable Lean definitions and
proves the specification claims about it.  The embedding follows the Python
source line by line:

* `iter_graph` and its helpers embed the breadth-first traversal
  (graph.py, `TaskGraph.iter_graph`).
* the storage model embeds `read_from_storage`, `write_to_storage`,
  `get_state_from_storage`, `_load_state` and `save_state`.
* the construction model embeds `add`, `_dereference_depends_aliases`,
  `_link_dependencies`, `get_tasks` and `subgraph_needed_for`.
* the scheduler model embeds `_run_helper`, `run_all`,
  `run_all_out_of_sync`, `duration_string` and `duration_message`.

Python dictionaries are modelled as association lists with unique keys
(`dset` / `dget`), sets of task objects are modelled as duplicate-free
lists, and the ambient file system / storage is passed explicitly.
-/

namespace Workflow

/-! ### Association-list model of Python dictionaries

`dset d k v` is `d[k] = v`: it replaces the value in place when the key is
present (keeping the original insertion order, which is what an insertion
ordered dictionary does) and appends otherwise.  `dget` is `d.get(k)`.
-/

def dget {β : Type} (d : List (String × β)) (k : String) : Option β :=
  match d with
  | [] => none
  | p :: rest => if p.1 = k then some p.2 else dget rest k

def dset {β : Type} (d : List (String × β)) (k : String) (v : β) :
    List (String × β) :=
  match d with
  | [] => [(k, v)]
  | p :: rest => if p.1 = k then (k, v) :: rest else p :: dset rest k v

def dkeys {β : Type} (d : List (String × β)) : List String :=
  d.map Prod.fst

/-! ### Graph traversal (`TaskGraph.iter_graph`)

Tasks are identified by elements of an arbitrary type with decidable
equality (`Nat` in the scheduler model, `creates` strings in the
construction model).  The adjacency of the graph is given by neighbour
functions.

`popQueue true` is `deque.popleft()` (used in the downstream direction)
and `popQueue false` is `deque.pop()`, which removes from the *right* end
of the deque (used in the upstream direction).

`enqueueFold` is the loop
`for task in updownset.difference(done): if task not in horizon_set: append`:
a neighbour is enqueued when it is neither done (`done` already contains
the just-popped task) nor already on the horizon; the horizon grows while
the loop runs.  The Python code keeps a separate `horizon_set` mirroring
the members of the `horizon` deque; since every append/pop updates both in
lockstep and the traversal is seeded from a set (so the deque starts
duplicate-free), membership in the deque and membership in the set agree,
and the model tests membership in the horizon list directly.

The Python `while horizon:` loop needs no fuel; the model adds a fuel
argument that is never exhausted on well-formed graphs (proved below):
every iteration moves one task into `done`, tasks are never re-enqueued,
and all enqueued tasks come from the seed list or the task list.
-/

def popQueue {α : Type} (popFront : Bool) (h : List α) : Option (α × List α) :=
  if popFront then
    match h with
    | [] => none
    | t :: rest => some (t, rest)
  else
    match h.getLast? with
    | none => none
    | some t => some (t, h.dropLast)

def enqueueFold {α : Type} [DecidableEq α] (doneL : List α) (rest : List α)
    (ns : List α) : List α :=
  ns.foldl (fun h n => if n ∈ doneL ∨ n ∈ h then h else h ++ [n]) rest

def iterAux {α : Type} [DecidableEq α] (nbr : α → List α) (popFront : Bool) :
    Nat → List α → List α → List α → List α
  | 0, _, _, out => out
  | fuel + 1, horizon, done, out =>
    match popQueue popFront horizon with
    | none => out
    | some (t, rest) =>
      iterAux nbr popFront fuel (enqueueFold (t :: done) rest (nbr t))
        (t :: done) (out ++ [t])

structure TGraph where
  tasks : List Nat
  up : Nat → List Nat
  down : Nat → List Nat

/-- Embeds `TaskGraph.get_source_tasks`: tasks whose `upstream_tasks` set is empty. -/
def get_source_tasks (g : TGraph) : List Nat :=
  g.tasks.filter (fun t => g.up t = [])

/-- Embeds `TaskGraph.get_sink_tasks`: tasks whose `downstream_tasks` set is empty. -/
def get_sink_tasks (g : TGraph) : List Nat :=
  g.tasks.filter (fun t => g.down t = [])

/-- The seed list of `iter_graph`: `tasks or self.get_source_tasks()`
(an empty argument is falsy and falls back to the default). -/
def seedsFor (g : TGraph) (starts : List Nat) (downstream : Bool) : List Nat :=
  if starts.isEmpty then
    if downstream then get_source_tasks g else get_sink_tasks g
  else starts

/-- Embeds `TaskGraph.iter_graph(tasks, downstream)`.  The fuel
`g.tasks.length + seeds.length` bounds the number of loop iterations and
is never exhausted on well-formed graphs. -/
def iter_graph (g : TGraph) (starts : List Nat) (downstream : Bool) :
    List Nat :=
  let seeds := seedsFor g starts downstream
  if downstream then
    iterAux g.down true (g.tasks.length + seeds.length) seeds [] []
  else
    iterAux g.up false (g.tasks.length + seeds.length) seeds [] []

/-! A small sanity check of the traversal on the diamond 0 → 1,2 → 3. -/

def diamond : TGraph where
  tasks := [0, 1, 2, 3]
  up := fun t => if t = 1 ∨ t = 2 then [0] else if t = 3 then [1, 2] else []
  down := fun t => if t = 0 then [1, 2] else if t = 1 ∨ t = 2 then [3] else []

example : iter_graph diamond [] true = [0, 1, 2, 3] := by decide

example : iter_graph diamond [] false = [3, 2, 0, 1] := by decide

/-! ### Well-formedness of a linked task graph

`WF g` states what `_link_dependencies` guarantees for every constructed
graph: the task list is duplicate-free, neighbour sets stay inside the
graph, and the upstream/downstream links are mutual
(`add_task_dependency` registers both directions).  `RankedBy g rank`
witnesses acyclicity: `rank` increases along every downstream edge. -/

abbrev WF (g : TGraph) : Prop :=
  g.tasks.Nodup ∧
  (∀ u ∈ g.tasks, ∀ v ∈ g.down u, v ∈ g.tasks) ∧
  (∀ u ∈ g.tasks, ∀ v ∈ g.up u, v ∈ g.tasks) ∧
  (∀ u ∈ g.tasks, ∀ v ∈ g.tasks, (v ∈ g.down u ↔ u ∈ g.up v))

abbrev RankedBy (g : TGraph) (rank : Nat → Nat) : Prop :=
  ∀ u ∈ g.tasks, ∀ v ∈ g.down u, rank u < rank v

/-! ### Invariants of the traversal loop -/

theorem popQueue_eq_none {α : Type} (pf : Bool) (h : List α) :
    popQueue pf h = none ↔ h = [] := by
  cases pf with
  | false =>
    cases h with
    | nil => simp [popQueue]
    | cons a tl =>
      simp [popQueue, List.getLast?_eq_getLast (a :: tl) (by simp)]
  | true => cases h <;> simp [popQueue]

theorem popQueue_perm {α : Type} {pf : Bool} {h rest : List α} {t : α}
    (hp : popQueue pf h = some (t, rest)) : h.Perm (t :: rest) := by
  cases pf with
  | true =>
    cases h with
    | nil => simp [popQueue] at hp
    | cons a tl =>
      simp [popQueue] at hp
      rw [hp.1, hp.2]
  | false =>
    cases h with
    | nil => simp [popQueue] at hp
    | cons a tl =>
      have hne : a :: tl ≠ [] := by simp
      rw [show popQueue false (a :: tl)
            = some ((a :: tl).getLast hne, (a :: tl).dropLast) by
          simp [popQueue, List.getLast?_eq_getLast (a :: tl) hne]] at hp
      obtain ⟨rfl, rfl⟩ := Prod.mk.injEq .. ▸ Option.some.injEq .. ▸ hp
      conv_lhs => rw [← List.dropLast_append_getLast hne]
      exact List.perm_append_singleton _ _

theorem mem_enqueueFold {α : Type} [DecidableEq α] (doneL : List α) (x : α) :
    ∀ (ns rest : List α),
      x ∈ enqueueFold doneL rest ns ↔ x ∈ rest ∨ (x ∈ ns ∧ x ∉ doneL) := by
  intro ns
  induction ns with
  | nil => simp [enqueueFold]
  | cons n ns ih =>
    intro rest
    show x ∈ List.foldl _ (if n ∈ doneL ∨ n ∈ rest then rest else rest ++ [n])
        ns ↔ _
    by_cases h : n ∈ doneL ∨ n ∈ rest
    · rw [if_pos h]
      rw [show (List.foldl (fun h n => if n ∈ doneL ∨ n ∈ h then h
            else h ++ [n]) rest ns) = enqueueFold doneL rest ns from rfl, ih]
      constructor
      · rintro (hx | ⟨hxs, hxd⟩)
        · exact Or.inl hx
        · exact Or.inr ⟨List.mem_cons_of_mem _ hxs, hxd⟩
      · rintro (hx | ⟨hmem, hxd⟩)
        · exact Or.inl hx
        · rcases List.mem_cons.mp hmem with rfl | hxs
          · rcases h with h | h
            · exact absurd h hxd
            · exact Or.inl h
          · exact Or.inr ⟨hxs, hxd⟩
    · rw [if_neg h]
      push_neg at h
      rw [show (List.foldl (fun h n => if n ∈ doneL ∨ n ∈ h then h
            else h ++ [n]) (rest ++ [n]) ns)
          = enqueueFold doneL (rest ++ [n]) ns from rfl, ih]
      simp only [List.mem_append, List.mem_singleton, List.mem_cons,
        List.not_mem_nil, or_false]
      constructor
      · rintro ((hx | rfl) | ⟨hxs, hxd⟩)
        · exact Or.inl hx
        · exact Or.inr ⟨Or.inl rfl, h.1⟩
        · exact Or.inr ⟨Or.inr hxs, hxd⟩
      · rintro (hx | ⟨(rfl | hxs), hxd⟩)
        · exact Or.inl (Or.inl hx)
        · exact Or.inl (Or.inr rfl)
        · exact Or.inr ⟨hxs, hxd⟩

theorem nodup_enqueueFold {α : Type} [DecidableEq α] (doneL : List α) :
    ∀ (ns rest : List α), rest.Nodup → (enqueueFold doneL rest ns).Nodup := by
  intro ns
  induction ns with
  | nil => intro rest h; simpa [enqueueFold] using h
  | cons n ns ih =>
    intro rest hrest
    show (List.foldl _ (if n ∈ doneL ∨ n ∈ rest then rest else rest ++ [n])
        ns).Nodup
    by_cases h : n ∈ doneL ∨ n ∈ rest
    · rw [if_pos h]; exact ih rest hrest
    · rw [if_neg h]
      push_neg at h
      exact ih (rest ++ [n])
        ((List.nodup_append_comm.mpr (by simpa using ⟨h.2, hrest⟩)))

theorem split_concat {α : Type} (pre post O : List α) (x t : α)
    (h : pre ++ x :: post = O ++ [t]) :
    (pre = O ∧ x = t ∧ post = []) ∨
      ∃ post0, post = post0 ++ [t] ∧ O = pre ++ x :: post0 := by
  rcases List.eq_nil_or_concat post with rfl | ⟨post0, y, rfl⟩
  · left
    have h2 := List.append_inj' h (by simp)
    refine ⟨h2.1, ?_, rfl⟩
    simpa using h2.2
  · right
    simp only [List.concat_eq_append] at h ⊢
    rw [show x :: (post0 ++ [y]) = (x :: post0) ++ [y] from rfl,
      ← List.append_assoc] at h
    have h2 := List.append_inj' h (by simp)
    obtain ⟨h1, h3⟩ := h2
    simp only [List.cons.injEq, and_true] at h3
    subst h3
    exact ⟨post0, rfl, h1.symm⟩

/-- The invariant maintained by the `while horizon:` loop of `iter_graph`.
`T` is the task universe, `S` the seed list, `H` the horizon deque, `D`
the `done` set and `O` the output `task_order`. -/
structure BfsInv {α : Type} (nbr : α → List α) (T S : List α) (fuel : Nat)
    (H D O : List α) : Prop where
  nodupH : H.Nodup
  nodupD : D.Nodup
  nodupO : O.Nodup
  doneEq : ∀ x, x ∈ D ↔ x ∈ O
  disjHD : ∀ x ∈ H, x ∉ D
  subH : ∀ x ∈ H, x ∈ T
  subD : ∀ x ∈ D, x ∈ T
  closure : ∀ u ∈ D, ∀ v ∈ nbr u, v ∈ D ∨ v ∈ H
  seedsIn : ∀ s ∈ S, s ∈ D ∨ s ∈ H
  fuelBig : T.length ≤ fuel + D.length
  ordOut : ∀ pre x post, O = pre ++ x :: post → x ∈ S ∨ ∃ u ∈ pre, x ∈ nbr u
  horizonJust : ∀ x ∈ H, x ∈ S ∨ ∃ u ∈ O, x ∈ nbr u

theorem bfs_end {α : Type} [DecidableEq α] {nbr : α → List α}
    {T S : List α} {fuel : Nat} {D O : List α}
    (inv : BfsInv nbr T S fuel [] D O) :
    O.Nodup ∧ (∀ x, x ∈ O ∨ x ∈ ([] : List α) → x ∈ O) ∧
      (∀ x ∈ O, x ∈ T) ∧ (∀ u ∈ O, ∀ v ∈ nbr u, v ∈ O) ∧
      (∀ pre x post, O = pre ++ x :: post → x ∈ S ∨ ∃ u ∈ pre, x ∈ nbr u) := by
  refine ⟨inv.nodupO, ?_, ?_, ?_, inv.ordOut⟩
  · rintro x (hx | hx)
    · exact hx
    · simp at hx
  · intro x hx
    exact inv.subD x ((inv.doneEq x).mpr hx)
  · intro u hu v hv
    rcases inv.closure u ((inv.doneEq u).mpr hu) v hv with h | h
    · exact (inv.doneEq v).mp h
    · simp at h

theorem iterAux_spec {α : Type} [DecidableEq α] (nbr : α → List α)
    (pf : Bool) (T S : List α)
    (hnbr : ∀ u ∈ T, ∀ v ∈ nbr u, v ∈ T) :
    ∀ (fuel : Nat) (H D O : List α), BfsInv nbr T S fuel H D O →
      (iterAux nbr pf fuel H D O).Nodup ∧
      (∀ x, x ∈ O ∨ x ∈ H → x ∈ iterAux nbr pf fuel H D O) ∧
      (∀ x ∈ iterAux nbr pf fuel H D O, x ∈ T) ∧
      (∀ u ∈ iterAux nbr pf fuel H D O, ∀ v ∈ nbr u,
        v ∈ iterAux nbr pf fuel H D O) ∧
      (∀ pre x post, iterAux nbr pf fuel H D O = pre ++ x :: post →
        x ∈ S ∨ ∃ u ∈ pre, x ∈ nbr u) := by
  intro fuel
  induction fuel with
  | zero =>
    intro H D O inv
    have hHnil : H = [] := by
      have hlen : T.length ≤ D.length := by simpa using inv.fuelBig
      have hsub : D.Subperm T :=
        List.subperm_of_subset inv.nodupD (fun x hx => inv.subD x hx)
      have hperm : D.Perm T := hsub.perm_of_length_le hlen
      cases H with
      | nil => rfl
      | cons a tl =>
        exact absurd (hperm.symm.subset (inv.subH a (by simp)))
          (inv.disjHD a (by simp))
    subst hHnil
    exact bfs_end inv
  | succ fuel ih =>
    intro H D O inv
    match hpop : popQueue pf H with
    | none =>
      have hHnil : H = [] := (popQueue_eq_none pf H).mp hpop
      subst hHnil
      have := bfs_end inv
      simpa [iterAux, hpop] using this
    | some (t, rest) =>
      have hperm : H.Perm (t :: rest) := popQueue_perm hpop
      have htH : t ∈ H := hperm.symm.subset (by simp)
      have hrestH : ∀ x ∈ rest, x ∈ H :=
        fun x hx => hperm.symm.subset (List.mem_cons_of_mem _ hx)
      have hnodup : (t :: rest).Nodup := hperm.nodup_iff.mp inv.nodupH
      have htrest : t ∉ rest := (List.nodup_cons.mp hnodup).1
      have hrestN : rest.Nodup := (List.nodup_cons.mp hnodup).2
      have htD : t ∉ D := inv.disjHD t htH
      have htT : t ∈ T := inv.subH t htH
      -- the stepped state
      have inv2 : BfsInv nbr T S fuel (enqueueFold (t :: D) rest (nbr t))
          (t :: D) (O ++ [t]) := by
        refine ⟨?_, ?_, ?_, ?_, ?_, ?_, ?_, ?_, ?_, ?_, ?_, ?_⟩
        · exact nodup_enqueueFold (t :: D) (nbr t) rest hrestN
        · exact List.nodup_cons.mpr ⟨htD, inv.nodupD⟩
        · exact List.nodup_append.mpr
            ⟨inv.nodupO, List.nodup_singleton t,
              by
                intro a ha hb
                simp at hb
                subst hb
                exact htD ((inv.doneEq a).mpr ha)⟩
        · intro x
          simp only [List.mem_cons, List.mem_append, List.mem_singleton,
            List.not_mem_nil, or_false]
          constructor
          · rintro (rfl | hx)
            · exact Or.inr rfl
            · exact Or.inl ((inv.doneEq x).mp hx)
          · rintro (hx | rfl)
            · exact Or.inr ((inv.doneEq x).mpr hx)
            · exact Or.inl rfl
        · intro x hx
          rcases (mem_enqueueFold (t :: D) x (nbr t) rest).mp hx with
            hxr | ⟨_, hnd⟩
          · intro hd
            rcases List.mem_cons.mp hd with heq | hd
            · exact htrest (heq ▸ hxr)
            · exact inv.disjHD x (hrestH x hxr) hd
          · exact hnd
        · intro x hx
          rcases (mem_enqueueFold (t :: D) x (nbr t) rest).mp hx with
            hxr | ⟨hn, _⟩
          · exact inv.subH x (hrestH x hxr)
          · exact hnbr t htT x hn
        · intro x hx
          rcases List.mem_cons.mp hx with rfl | hx
          · exact htT
          · exact inv.subD x hx
        · intro u hu v hv
          rcases List.mem_cons.mp hu with rfl | hu
          · by_cases hvd : v ∈ u :: D
            · exact Or.inl hvd
            · exact Or.inr ((mem_enqueueFold (u :: D) v (nbr u) rest).mpr
                (Or.inr ⟨hv, hvd⟩))
          · rcases inv.closure u hu v hv with h | h
            · exact Or.inl (List.mem_cons_of_mem _ h)
            · rcases List.mem_cons.mp (hperm.subset h) with rfl | h
              · exact Or.inl (List.mem_cons_self _ _)
              · exact Or.inr ((mem_enqueueFold (t :: D) v (nbr t) rest).mpr
                  (Or.inl h))
        · intro s hs
          rcases inv.seedsIn s hs with h | h
          · exact Or.inl (List.mem_cons_of_mem _ h)
          · rcases List.mem_cons.mp (hperm.subset h) with rfl | h
            · exact Or.inl (List.mem_cons_self _ _)
            · exact Or.inr ((mem_enqueueFold (t :: D) s (nbr t) rest).mpr
                (Or.inl h))
        · have := inv.fuelBig
          simp only [List.length_cons]
          omega
        · intro pre x post hsplit
          rcases split_concat pre post O x t hsplit.symm with
            ⟨rfl, rfl, rfl⟩ | ⟨post0, rfl, hO⟩
          · rcases inv.horizonJust x htH with h | h
            · exact Or.inl h
            · exact Or.inr h
          · exact inv.ordOut pre x post0 hO
        · intro x hx
          rcases (mem_enqueueFold (t :: D) x (nbr t) rest).mp hx with
            hx | ⟨hn, _⟩
          · rcases inv.horizonJust x (hrestH x hx) with h | ⟨u, hu, hxu⟩
            · exact Or.inl h
            · exact Or.inr ⟨u, List.mem_append_left _ hu, hxu⟩
          · exact Or.inr ⟨t, List.mem_append_right _ (by simp), hn⟩
      have hstep : iterAux nbr pf (fuel + 1) H D O
          = iterAux nbr pf fuel (enqueueFold (t :: D) rest (nbr t))
            (t :: D) (O ++ [t]) := by
        simp [iterAux, hpop]
      obtain ⟨c1, c2, c3, c4, c5⟩ := ih _ _ _ inv2
      rw [hstep]
      refine ⟨c1, ?_, c3, c4, c5⟩
      rintro x (hx | hx)
      · exact c2 x (Or.inl (List.mem_append_left _ hx))
      · rcases List.mem_cons.mp (hperm.subset hx) with rfl | hx
        · exact c2 x (Or.inl (List.mem_append_right _ (by simp)))
        · exact c2 x (Or.inr ((mem_enqueueFold (t :: D) x (nbr t) rest).mpr
            (Or.inl hx)))

theorem bfsInv_init {α : Type} (nbr : α → List α) (T S : List α)
    (hS : S.Nodup) (hST : ∀ s ∈ S, s ∈ T) (fuel : Nat)
    (hfuel : T.length ≤ fuel) : BfsInv nbr T S fuel S [] [] := by
  refine ⟨hS, List.nodup_nil, List.nodup_nil, by simp, by simp, hST,
    by simp, by simp, fun s hs => Or.inr hs, by simpa using hfuel, ?_,
    fun x hx => Or.inl hx⟩
  intro pre x post h
  simp at h

/-- C3: for every well-formed acyclic graph, `iter_graph` in the
downstream direction starting from the source tasks outputs each task of
the graph exactly once (the output is duplicate-free, contains every task
of the graph and nothing else), and every task with at least one upstream
task appears in the output only after one of its upstream tasks has been
output (and hence enqueued). -/
theorem iter_graph_downstream_exactly_once (g : TGraph) (rank : Nat → Nat)
    (hwf : WF g) (hrank : RankedBy g rank) :
    (iter_graph g [] true).Nodup ∧
    (∀ t ∈ g.tasks, t ∈ iter_graph g [] true) ∧
    (∀ t ∈ iter_graph g [] true, t ∈ g.tasks) ∧
    (∀ pre x post, iter_graph g [] true = pre ++ x :: post →
      g.up x ≠ [] → ∃ u ∈ pre, u ∈ g.up x) := by
  obtain ⟨hnd, hdownT, hupT, hcons⟩ := hwf
  have hseedsub : ∀ s ∈ get_source_tasks g, s ∈ g.tasks :=
    fun s hs => (List.mem_filter.mp hs).1
  have hseednd : (get_source_tasks g).Nodup := hnd.filter _
  have hinit := bfsInv_init g.down g.tasks (get_source_tasks g) hseednd
    hseedsub (g.tasks.length + (get_source_tasks g).length) (by omega)
  obtain ⟨c1, c2, c3, c4, c5⟩ :=
    iterAux_spec g.down true g.tasks (get_source_tasks g) hdownT _ _ _ _ hinit
  have hiter : iter_graph g [] true
      = iterAux g.down true (g.tasks.length + (get_source_tasks g).length)
        (get_source_tasks g) [] [] := rfl
  rw [hiter]
  refine ⟨c1, ?_, c3, ?_⟩
  · have main : ∀ n, ∀ t ∈ g.tasks, rank t = n →
        t ∈ iterAux g.down true
          (g.tasks.length + (get_source_tasks g).length)
          (get_source_tasks g) [] [] := by
      intro n
      induction n using Nat.strong_induction_on with
      | _ n ih =>
        intro t ht hrt
        by_cases hup : g.up t = []
        · exact c2 t (Or.inr (List.mem_filter.mpr ⟨ht, by simp [hup]⟩))
        · obtain ⟨u, hu⟩ := List.exists_mem_of_ne_nil _ hup
          have huT := hupT t ht u hu
          have htdown : t ∈ g.down u := (hcons u huT t ht).mpr hu
          have hlt : rank u < rank t := hrank u huT t htdown
          have hurec := ih (rank u) (hrt ▸ hlt) u huT rfl
          exact c4 u hurec t htdown
    exact fun t ht => main (rank t) t ht rfl
  · intro pre x post hsplit hupne
    rcases c5 pre x post hsplit with hx | ⟨u, hu, hxd⟩
    · exact absurd (List.mem_filter.mp hx).2 (by simpa using hupne)
    · have hxT : x ∈ g.tasks := c3 x (by
        rw [hsplit]
        exact List.mem_append_right _ (List.mem_cons_self _ _))
      have huT : u ∈ g.tasks := c3 u (by
        rw [hsplit]
        exact List.mem_append_left _ hu)
      exact ⟨u, hu, (hcons u huT x hxT).mp hxd⟩

theorem iter_graph_downstream_exactly_once_witness :
    WF diamond ∧ RankedBy diamond (fun t => t) ∧
    ((iter_graph diamond [] true).Nodup ∧
      (∀ t ∈ diamond.tasks, t ∈ iter_graph diamond [] true) ∧
      (∀ t ∈ iter_graph diamond [] true, t ∈ diamond.tasks) ∧
      (∀ pre x post, iter_graph diamond [] true = pre ++ x :: post →
        diamond.up x ≠ [] → ∃ u ∈ pre, u ∈ diamond.up x)) :=
  ⟨by decide, by decide,
    iter_graph_downstream_exactly_once diamond (fun t => t)
      (by decide) (by decide)⟩

/-! ### The pop discipline of the two traversal directions (C4)

`bfsFIFO` is the traversal described by the specification sentence for
C4: same neighbour screening as `iter_graph`, but the next node is always
removed from the *front* of the horizon (a strict first-in-first-out
queue).  `stackLIFO` removes from the back.  The code uses
`popleft` downstream but `pop` upstream, so only the downstream direction
is FIFO. -/

def bfsFIFO {α : Type} [DecidableEq α] (nbr : α → List α) :
    Nat → List α → List α → List α
  | 0, _, _ => []
  | fuel + 1, horizon, done =>
    match horizon with
    | [] => []
    | t :: rest =>
      t :: bfsFIFO nbr fuel (enqueueFold (t :: done) rest (nbr t)) (t :: done)

def stackLIFO {α : Type} [DecidableEq α] (nbr : α → List α) :
    Nat → List α → List α → List α
  | 0, _, _ => []
  | fuel + 1, horizon, done =>
    match horizon.getLast? with
    | none => []
    | some t =>
      t :: stackLIFO nbr fuel (enqueueFold (t :: done) horizon.dropLast (nbr t))
        (t :: done)

theorem iterAux_true_eq_bfsFIFO {α : Type} [DecidableEq α]
    (nbr : α → List α) :
    ∀ (fuel : Nat) (H D O : List α),
      iterAux nbr true fuel H D O = O ++ bfsFIFO nbr fuel H D := by
  intro fuel
  induction fuel with
  | zero => intro H D O; simp [iterAux, bfsFIFO]
  | succ fuel ih =>
    intro H D O
    cases H with
    | nil => simp [iterAux, bfsFIFO, popQueue]
    | cons t rest =>
      rw [show iterAux nbr true (fuel + 1) (t :: rest) D O
          = iterAux nbr true fuel (enqueueFold (t :: D) rest (nbr t))
            (t :: D) (O ++ [t]) from by simp [iterAux, popQueue]]
      rw [ih]
      rw [show bfsFIFO nbr (fuel + 1) (t :: rest) D
          = t :: bfsFIFO nbr fuel (enqueueFold (t :: D) rest (nbr t))
            (t :: D) from rfl]
      simp

theorem iterAux_false_eq_stackLIFO {α : Type} [DecidableEq α]
    (nbr : α → List α) :
    ∀ (fuel : Nat) (H D O : List α),
      iterAux nbr false fuel H D O = O ++ stackLIFO nbr fuel H D := by
  intro fuel
  induction fuel with
  | zero => intro H D O; simp [iterAux, stackLIFO]
  | succ fuel ih =>
    intro H D O
    cases hL : H.getLast? with
    | none =>
      have : H = [] := by simpa using hL
      subst this
      simp [iterAux, stackLIFO, popQueue]
    | some t =>
      rw [show iterAux nbr false (fuel + 1) H D O
          = iterAux nbr false fuel
            (enqueueFold (t :: D) H.dropLast (nbr t)) (t :: D) (O ++ [t])
          from by simp [iterAux, popQueue, hL]]
      rw [ih]
      rw [show stackLIFO nbr (fuel + 1) H D
          = t :: stackLIFO nbr fuel
            (enqueueFold (t :: D) H.dropLast (nbr t)) (t :: D)
          from by simp [stackLIFO, hL]]
      simp

/-- The concrete graph on which the upstream traversal order differs from
a first-in-first-out traversal: 1 → 0, 2 → 0, 3 → 1 (downstream edges). -/
def fifoCounterG : TGraph where
  tasks := [0, 1, 2, 3]
  up := fun t => if t = 0 then [1, 2] else if t = 1 then [3] else []
  down := fun t =>
    if t = 1 ∨ t = 2 then [0] else if t = 3 then [1] else []

/-- C4 counterexample: the claim says the upstream direction removes
nodes from the horizon first-in-first-out exactly as the downstream
direction does.  On `fifoCounterG`, starting upstream from task 0, the
code pops from the *back* of the deque and visits `[0, 2, 1, 3]`, while
the first-in-first-out order is `[0, 1, 2, 3]`: task 1 is enqueued before
task 2 but visited after it. -/
theorem iter_graph_upstream_not_fifo :
    iter_graph fifoCounterG [0] false = [0, 2, 1, 3] ∧
    bfsFIFO fifoCounterG.up
      (fifoCounterG.tasks.length + (seedsFor fifoCounterG [0] false).length)
      (seedsFor fifoCounterG [0] false) [] = [0, 1, 2, 3] ∧
    iter_graph fifoCounterG [0] false ≠
      bfsFIFO fifoCounterG.up
        (fifoCounterG.tasks.length +
          (seedsFor fifoCounterG [0] false).length)
        (seedsFor fifoCounterG [0] false) [] := by
  refine ⟨by decide, by decide, by decide⟩

/-- C4 amended: for every graph and every start set, `iter_graph`
removes nodes from the horizon first-in-first-out (breadth-first level
order) in the *downstream* direction, while in the *upstream* direction it
removes the most recently enqueued node first (`deque.pop()` takes the
last element), so the upstream order is the stack order, not the queue
order. -/
theorem iter_graph_pop_discipline (g : TGraph) (starts : List Nat) :
    iter_graph g starts true
      = bfsFIFO g.down (g.tasks.length + (seedsFor g starts true).length)
        (seedsFor g starts true) [] ∧
    iter_graph g starts false
      = stackLIFO g.up (g.tasks.length + (seedsFor g starts false).length)
        (seedsFor g starts false) [] := by
  constructor
  · rw [show iter_graph g starts true
        = iterAux g.down true
          (g.tasks.length + (seedsFor g starts true).length)
          (seedsFor g starts true) [] [] from rfl]
    rw [iterAux_true_eq_bfsFIFO]
    simp
  · rw [show iter_graph g starts false
        = iterAux g.up false
          (g.tasks.length + (seedsFor g starts false).length)
          (seedsFor g starts false) [] [] from rfl]
    rw [iterAux_false_eq_stackLIFO]
    simp

/-! ### Persistence (`read_from_storage`, `write_to_storage`,
`get_state_from_storage`, `_load_state`, `save_state`)

A storage location is `Option (List (String × String))`: `none` when the
file does not exist (`os.path.exists` fails), otherwise the list of
two-column CSV rows.  `Storage` bundles the two files used by the state
store (the free-form log file plays no role in any claim). -/

inductive PyErr where
  | nonUniqueTask (key : String)
  | invalidTaskDefinition (dep : String)
  | attributeError
  | valueError
deriving DecidableEq, Repr

deriving instance DecidableEq for Except

structure Storage where
  stateFile : Option (List (String × String))
  durationFile : Option (List (String × String))
deriving DecidableEq, Repr

/-- Embeds `TaskGraph.read_from_storage`: a missing file yields an empty
dictionary, otherwise each row is entered into the dictionary in order
(`dictionary[row[0]] = row[1]`). -/
def read_from_storage (file : Option (List (String × String))) :
    List (String × String) :=
  match file with
  | none => []
  | some rows => rows.foldl (fun d r => dset d r.1 r.2) []

/-- Embeds `TaskGraph.write_to_storage`: the rows written are the
dictionary items in dictionary order. -/
def write_to_storage {β : Type} (d : List (String × β)) : List (String × β) :=
  d

/-- Embeds `TaskGraph.get_state_from_storage`: scan the state file for the
first row naming `resource`; a missing file or absent row yields `None`. -/
def get_state_from_storage (disk : Storage) (resource : String) :
    Option String :=
  match disk.stateFile with
  | none => none
  | some rows => (rows.find? (fun r => r.1 = resource)).map Prod.snd

/-- Parses the digit string of an integer literal. -/
def digitsVal (cs : List Char) : Option Nat :=
  if cs = [] then none
  else
    cs.foldl
      (fun acc c =>
        match acc with
        | none => none
        | some n => if c.isDigit then some (n * 10 + (c.toNat - 48)) else none)
      (some 0)

/-- Exact model of the floating-point values this program computes with:
a fraction `num / den` with positive denominator.  All the durations in
the claims are small exact decimals, far from any rounding of binary
floats, so exact fractions model them faithfully.  Equality of values is
`Q.beqv` (cross multiplication), matching Python float `==`; `Q.blt` is
`<`. -/
structure Q where
  num : Int
  den : Nat
deriving DecidableEq, Repr

def Q.ofNat (n : Nat) : Q := ⟨n, 1⟩

def Q.add (a b : Q) : Q := ⟨a.num * b.den + b.num * a.den, a.den * b.den⟩

/-- Division by a positive integer constant (`duration / 60`, `/ 24`). -/
def Q.divNat (a : Q) (n : Nat) : Q := ⟨a.num, a.den * n⟩

def Q.blt (a b : Q) : Bool := a.num * b.den < b.num * a.den

def Q.beqv (a b : Q) : Bool := a.num * b.den = b.num * a.den

def Q.neg (a : Q) : Q := ⟨-a.num, a.den⟩

/-- Serialization of a float value (used when the duration table is
written back; no claim depends on its exact shape). -/
def Q.repr2 (a : Q) : String := toString a.num ++ "/" ++ toString a.den

/-- Splits a character list at the first decimal point. -/
def splitDotAux : List Char → List Char × Option (List Char)
  | [] => ([], none)
  | c :: rest =>
    if c = '.' then ([], some rest)
    else
      let r := splitDotAux rest
      (c :: r.1, r.2)

/-- Models Python `float(...)` on the plain decimal strings this program
itself writes to the duration table (optional sign, digits, optional
fractional part); anything else is a `ValueError`. -/
def parseFloatV (s : String) : Option Q :=
  let core : List Char → Option Q := fun cs =>
    match splitDotAux cs with
    | (a, none) => (digitsVal a).map Q.ofNat
    | (a, some b) =>
      if b.contains '.' then none
      else if a = [] ∧ b = [] then none
      else
        let ia := if a = [] then some 0 else digitsVal a
        let ib := if b = [] then some 0 else digitsVal b
        match ia, ib with
        | some n, some f => some ⟨n * 10 ^ b.length + f, 10 ^ b.length⟩
        | _, _ => none
  match s.toList with
  | '-' :: rest => (core rest).map Q.neg
  | cs => core cs

/-- Typecasting loop of `_load_state`: every value of the duration table
is converted with `float(...)`; the first malformed value raises. -/
def parse_durations : List (String × String) → Except PyErr (List (String × Q))
  | [] => .ok []
  | p :: rest =>
    match parseFloatV p.2, parse_durations rest with
    | some q, .ok l => .ok ((p.1, q) :: l)
    | _, _ => .error .valueError

/-- Embeds `TaskGraph._load_state`, run at the end of graph construction:
`self.task_durations` (initially empty) is updated from the duration
table read from storage and each value is typecast to floating point.
Nothing else is read: in particular the resource-state table is not
loaded into memory. -/
def load_state (disk : Storage) : Except PyErr (List (String × Q)) :=
  parse_durations (read_from_storage disk.durationFile)

/-- The in-memory state of a constructed graph that the scheduler and the
state store operate on.  Tasks are the `Nat` nodes of `tg`; the
collaborator capabilities of a task (`task.name`, `task.id`,
`is_pseudotask()`, `in_sync()`) and of a resource
(`resource.get_current_state()`, tabulated in `resource_dict`) are data
of the structure. -/
structure SGraph where
  tg : TGraph
  nameOf : Nat → String
  idOf : Nat → String
  isPseudo : Nat → Bool
  inSync : Nat → Bool
  resource_dict : List (String × String)
  task_durations : List (String × Q)
  configPath : String

/-- Embeds `TaskGraph.save_state(override_resource_states)`: read the
current on-disk resource-state table fresh, overlay the current state of
every resource in `self.resource_dict`, apply the overrides when a
dictionary is passed, write the merged result to the state file, and
overwrite the duration file from the in-memory duration table. -/
def save_state (g : SGraph) (disk : Storage)
    (ov : Option (List (String × String))) : Storage :=
  let after := read_from_storage disk.stateFile
  let after := g.resource_dict.foldl (fun d p => dset d p.1 p.2) after
  let after :=
    match ov with
    | some o => o.foldl (fun d p => dset d p.1 p.2) after
    | none => after
  { stateFile := some (write_to_storage after)
    durationFile :=
      some (write_to_storage
        (g.task_durations.map (fun p => (p.1, Q.repr2 p.2)))) }

/-! ### Dictionary lemmas for the read-merge-write proof -/

theorem dget_dset {β : Type} (d : List (String × β)) (k k2 : String) (v : β) :
    dget (dset d k v) k2 = if k2 = k then some v else dget d k2 := by
  induction d with
  | nil =>
    by_cases h : k2 = k
    · subst h
      show (if k2 = k2 then some v else dget [] k2) = _
      simp
    · show (if k = k2 then some v else dget [] k2) = _
      rw [if_neg (fun hh => h hh.symm), if_neg h]
  | cons p rest ih =>
    by_cases hpk : p.1 = k
    · rw [show dset (p :: rest) k v = (k, v) :: rest from by simp [dset, hpk]]
      by_cases h : k2 = k
      · subst h
        show (if k2 = k2 then some v else dget rest k2) = _
        simp
      · rw [show dget ((k, v) :: rest) k2
            = if k = k2 then some v else dget rest k2 from rfl]
        rw [if_neg (fun hh => h hh.symm), if_neg h]
        rw [show dget (p :: rest) k2
            = if p.1 = k2 then some p.2 else dget rest k2 from rfl]
        rw [if_neg (fun hh => h (hh.symm.trans hpk))]
    · rw [show dset (p :: rest) k v = p :: dset rest k v from by
          simp [dset, hpk]]
      rw [show dget (p :: dset rest k v) k2
          = if p.1 = k2 then some p.2 else dget (dset rest k v) k2 from rfl]
      rw [show dget (p :: rest) k2
          = if p.1 = k2 then some p.2 else dget rest k2 from rfl]
      rw [ih]
      by_cases hp2 : p.1 = k2
      · rw [if_pos hp2, if_neg (fun hh => hpk (hp2.trans hh)), if_pos hp2]
      · rw [if_neg hp2, if_neg hp2]

theorem dget_foldl_dset_frame {β : Type} (l : List (String × β)) (k : String)
    (hk : k ∉ l.map Prod.fst) :
    ∀ d, dget (l.foldl (fun d p => dset d p.1 p.2) d) k = dget d k := by
  induction l with
  | nil => intro d; rfl
  | cons p rest ih =>
    intro d
    simp only [List.map_cons, List.mem_cons] at hk
    push_neg at hk
    rw [List.foldl_cons, ih hk.2, dget_dset]
    exact if_neg hk.1

def NodupKeys {β : Type} (d : List (String × β)) : Prop :=
  (d.map Prod.fst).Nodup

theorem dset_eq_append {β : Type} (d : List (String × β)) (k : String) (v : β)
    (hk : k ∉ d.map Prod.fst) : dset d k v = d ++ [(k, v)] := by
  induction d with
  | nil => rfl
  | cons p rest ih =>
    simp only [List.map_cons, List.mem_cons] at hk
    push_neg at hk
    show (if p.1 = k then (k, v) :: rest else p :: dset rest k v) = _
    rw [if_neg (fun h => hk.1 h.symm), ih hk.2]
    rfl

theorem mem_dset {β : Type} (d : List (String × β)) (k : String) (v : β)
    (q : String × β) (hq : q ∈ dset d k v) : q ∈ d ∨ q.1 = k := by
  induction d with
  | nil =>
    simp only [dset, List.mem_singleton] at hq
    exact Or.inr (by rw [hq])
  | cons p rest ih =>
    by_cases hpk : p.1 = k
    · rw [show dset (p :: rest) k v = (k, v) :: rest from by
          simp [dset, hpk]] at hq
      rcases List.mem_cons.mp hq with rfl | hq
      · exact Or.inr rfl
      · exact Or.inl (List.mem_cons_of_mem _ hq)
    · rw [show dset (p :: rest) k v = p :: dset rest k v from by
          simp [dset, hpk]] at hq
      rcases List.mem_cons.mp hq with rfl | hq
      · exact Or.inl (List.mem_cons_self _ _)
      · rcases ih hq with h | h
        · exact Or.inl (List.mem_cons_of_mem _ h)
        · exact Or.inr h

theorem foldl_dset_eq_append {β : Type} (rows : List (String × β)) :
    ∀ d, NodupKeys rows →
      (∀ k ∈ rows.map Prod.fst, k ∉ d.map Prod.fst) →
      rows.foldl (fun d p => dset d p.1 p.2) d = d ++ rows := by
  induction rows with
  | nil => intro d _ _; simp
  | cons p rest ih =>
    intro d hnd hdisj
    have hp : p.1 ∉ d.map Prod.fst := hdisj p.1 (by simp)
    have hnd2 : NodupKeys rest := by
      have h := hnd
      simp only [NodupKeys, List.map_cons, List.nodup_cons] at h
      exact h.2
    have hp2 : p.1 ∉ rest.map Prod.fst := by
      have h := hnd
      simp only [NodupKeys, List.map_cons, List.nodup_cons] at h
      exact h.1
    have hdisj2 : ∀ k ∈ rest.map Prod.fst, k ∉ (d ++ [p]).map Prod.fst := by
      intro k hkr hmem
      rw [List.map_append] at hmem
      rcases List.mem_append.mp hmem with hkd | hkp
      · exact hdisj k (List.mem_cons_of_mem _ hkr) hkd
      · simp only [List.map_cons, List.map_nil, List.mem_singleton] at hkp
        exact hp2 (hkp ▸ hkr)
    rw [List.foldl_cons, dset_eq_append d p.1 p.2 hp]
    rw [show ((p.1, p.2) : String × β) = p from rfl]
    rw [ih (d ++ [p]) hnd2 hdisj2]
    simp

theorem read_some_eq_self (rows : List (String × String))
    (h : NodupKeys rows) : read_from_storage (some rows) = rows := by
  show rows.foldl (fun d p => dset d p.1 p.2) [] = rows
  rw [foldl_dset_eq_append rows [] h (by simp)]
  rfl

theorem nodupKeys_dset {β : Type} (d : List (String × β)) (k : String)
    (v : β) (h : NodupKeys d) : NodupKeys (dset d k v) := by
  induction d with
  | nil => simp [NodupKeys, dset]
  | cons p rest ih =>
    show NodupKeys (if p.1 = k then (k, v) :: rest else p :: dset rest k v)
    simp only [NodupKeys, List.map_cons, List.nodup_cons] at h
    by_cases hpk : p.1 = k
    · rw [if_pos hpk]
      simp only [NodupKeys, List.map_cons, List.nodup_cons]
      exact ⟨hpk ▸ h.1, h.2⟩
    · rw [if_neg hpk]
      simp only [NodupKeys, List.map_cons, List.nodup_cons]
      refine ⟨?_, ih h.2⟩
      intro hmem
      rcases List.mem_map.mp hmem with ⟨q, hq, hq1⟩
      rcases mem_dset rest k v q hq with hq2 | hq2
      · exact h.1 (hq1 ▸ List.mem_map_of_mem Prod.fst hq2)
      · exact hpk (hq1.symm.trans hq2)

theorem nodupKeys_foldl_dset {β : Type} (l : List (String × β)) :
    ∀ d, NodupKeys d →
      NodupKeys (l.foldl (fun d p => dset d p.1 p.2) d) := by
  induction l with
  | nil => intro d h; exact h
  | cons p rest ih =>
    intro d h
    exact ih _ (nodupKeys_dset d p.1 p.2 h)

theorem nodupKeys_read (file : Option (List (String × String))) :
    NodupKeys (read_from_storage file) := by
  cases file with
  | none => simp [read_from_storage, NodupKeys]
  | some rows =>
    exact nodupKeys_foldl_dset rows [] (by simp [NodupKeys])

/-- C1: save_state merges rather than overwrites: for every resource name
neither owned by this graph instance (not a key of `resource_dict`) nor
mentioned in the overrides, the persisted resource-state entry after
`save_state` is the entry before it; a subgraph save never removes or
changes entries belonging to tasks outside the subgraph. -/
theorem save_state_preserves_unrelated (g : SGraph) (disk : Storage)
    (ov : Option (List (String × String))) (name : String)
    (hres : name ∉ g.resource_dict.map Prod.fst)
    (hov : name ∉ (ov.getD []).map Prod.fst) :
    dget (read_from_storage (save_state g disk ov).stateFile) name
      = dget (read_from_storage disk.stateFile) name := by
  have h1 : NodupKeys (read_from_storage disk.stateFile) :=
    nodupKeys_read disk.stateFile
  have h2 : NodupKeys
      (g.resource_dict.foldl (fun d p => dset d p.1 p.2)
        (read_from_storage disk.stateFile)) :=
    nodupKeys_foldl_dset _ _ h1
  cases ov with
  | none =>
    show dget (read_from_storage (some (write_to_storage _))) name = _
    rw [write_to_storage, read_some_eq_self _ h2]
    exact dget_foldl_dset_frame g.resource_dict name hres _
  | some o =>
    have h3 : NodupKeys
        (o.foldl (fun d p => dset d p.1 p.2)
          (g.resource_dict.foldl (fun d p => dset d p.1 p.2)
            (read_from_storage disk.stateFile))) :=
      nodupKeys_foldl_dset _ _ h2
    show dget (read_from_storage (some (write_to_storage _))) name = _
    rw [write_to_storage, read_some_eq_self _ h3]
    rw [dget_foldl_dset_frame o name (by simpa using hov) _]
    exact dget_foldl_dset_frame g.resource_dict name hres _

/-- The graph used by the C1 witness: one owned resource `A`, one
in-memory duration. -/
def c1G : SGraph where
  tg := diamond
  nameOf := fun t => "r" ++ toString t
  idOf := fun t => "t" ++ toString t
  isPseudo := fun _ => false
  inSync := fun _ => false
  resource_dict := [("A", "fp-new")]
  task_durations := [("ta", Q.ofNat 5)]
  configPath := "/tmp/wf.yaml"

theorem save_state_preserves_unrelated_witness :
    ("B" ∉ c1G.resource_dict.map Prod.fst) ∧
    ("B" ∉ ((some [("A", "over")] :
        Option (List (String × String))).getD []).map Prod.fst) ∧
    dget (read_from_storage (save_state c1G
        ⟨some [("A", "old"), ("B", "keep"), ("C", "keep2")], none⟩
        (some [("A", "over")])).stateFile) "B"
      = dget (read_from_storage
          (some [("A", "old"), ("B", "keep"), ("C", "keep2")])) "B" :=
  ⟨by decide, by decide,
    save_state_preserves_unrelated c1G
      ⟨some [("A", "old"), ("B", "keep"), ("C", "keep2")], none⟩
      (some [("A", "over")]) "B" (by decide) (by decide)⟩

/-- C6 counterexample: the claim says both persisted tables (resource
states and task durations) are loaded at graph construction.  In fact
`_load_state` reads only the duration table: loading over a storage whose
resource-state table carries an entry gives exactly the same in-memory
result as loading over a storage with no state file at all, so the
resource-state table is not loaded into any in-memory mapping at
construction. -/
theorem load_state_ignores_resource_states :
    load_state ⟨some [("A", "x")], some [("t", "1.5")]⟩
      = load_state ⟨none, some [("t", "1.5")]⟩ ∧
    load_state ⟨some [("A", "x")], some [("t", "1.5")]⟩
      = .ok [("t", ⟨15, 10⟩)] := by
  refine ⟨rfl, ?_⟩
  show parse_durations (read_from_storage (some [("t", "1.5")]))
      = .ok [("t", ⟨15, 10⟩)]
  decide

/-- C6 amended: at graph construction only the task-duration table is
loaded into memory: the result of `_load_state` depends only on the
duration file (the resource-state table is instead read on demand by
`get_state_from_storage` and `save_state`); a missing duration file
yields an empty table rather than an error; and the loaded values are the
string table values typecast to floating point. -/
theorem load_state_loads_durations_only (d1 d2 : Storage)
    (h : d1.durationFile = d2.durationFile) :
    load_state d1 = load_state d2 ∧
    load_state ⟨d1.stateFile, none⟩ = .ok [] ∧
    load_state d1 = parse_durations (read_from_storage d1.durationFile) := by
  refine ⟨?_, rfl, rfl⟩
  show parse_durations (read_from_storage d1.durationFile)
      = parse_durations (read_from_storage d2.durationFile)
  rw [h]

theorem load_state_loads_durations_only_witness :
    (Storage.durationFile ⟨some [("A", "x")], some [("t", "2.5")]⟩
      = Storage.durationFile ⟨none, some [("t", "2.5")]⟩) ∧
    (load_state ⟨some [("A", "x")], some [("t", "2.5")]⟩
      = load_state ⟨none, some [("t", "2.5")]⟩ ∧
     load_state ⟨(⟨some [("A", "x")], some [("t", "2.5")]⟩ :
        Storage).stateFile, none⟩ = .ok [] ∧
     load_state ⟨some [("A", "x")], some [("t", "2.5")]⟩
      = parse_durations (read_from_storage (some [("t", "2.5")]))) :=
  ⟨rfl, load_state_loads_durations_only
    ⟨some [("A", "x")], some [("t", "2.5")]⟩
    ⟨none, some [("t", "2.5")]⟩ rfl⟩

/-! ### The execution scheduler (`_run_helper`, `run_all`,
`run_all_out_of_sync`)

`timed_run()` either returns normally or raises `KeyboardInterrupt` or
`ShellError`; the per-task outcome is supplied as the environment `beh`.
The result records whether `sys.exit` was reached (and with which code),
the final storage, and how many times `save_state` ran. -/

inductive RunErr where
  | keyboardInterrupt (code : Option Nat)
  | shellError (code : Option Nat)
deriving DecidableEq, Repr

/-- Models `getattr(e, 'exit_code', 1)`. -/
def RunErr.exitCodeOr1 : RunErr → Nat
  | .keyboardInterrupt c => c.getD 1
  | .shellError c => c.getD 1

structure RunResult where
  exitCode : Option Nat
  disk : Storage
  saves : Nat
deriving DecidableEq, Repr

/-- Loop of `_run_helper` over the traversal order.  A selected task
mock-runs (no storage effect) in mock mode; otherwise it timed-runs: on
success the loop continues, and on `KeyboardInterrupt` or `ShellError`
state is saved with the override `{task.name: ''}` and the process exits
with `getattr(e, 'exit_code', 1)`.  When the loop finishes, a non-mock
run saves state. -/
def run_tasks (g : SGraph) (doRun : Nat → Bool) (mock : Bool)
    (beh : Nat → Option RunErr) : List Nat → Storage → Nat → RunResult
  | [], disk, saves =>
    if mock then ⟨none, disk, saves⟩
    else ⟨none, save_state g disk none, saves + 1⟩
  | t :: rest, disk, saves =>
    if doRun t then
      if mock then run_tasks g doRun mock beh rest disk saves
      else
        match beh t with
        | none => run_tasks g doRun mock beh rest disk saves
        | some e =>
          ⟨some e.exitCodeOr1,
            save_state g disk (some [(g.nameOf t, "")]), saves + 1⟩
    else run_tasks g doRun mock beh rest disk saves

/-- Embeds `TaskGraph._run_helper(starting_tasks, do_run_func, mock_run)`
(its initial `logger.info(self.duration_message(starting_tasks))` only
logs and does not touch storage). -/
def run_helper (g : SGraph) (starting : List Nat) (doRun : Nat → Bool)
    (mock : Bool) (beh : Nat → Option RunErr) (disk : Storage) : RunResult :=
  run_tasks g doRun mock beh (iter_graph g.tg starting true) disk 0

/-- Embeds `TaskGraph.get_out_of_sync_tasks`. -/
def get_out_of_sync_tasks (g : SGraph) : List Nat :=
  (iter_graph g.tg [] true).filter
    (fun t => !(g.isPseudo t) && !(g.inSync t))

/-- Embeds `TaskGraph.run_all(mock_run)`. -/
def run_all (g : SGraph) (mock : Bool) (beh : Nat → Option RunErr)
    (disk : Storage) : RunResult :=
  run_helper g (iter_graph g.tg [] true) (fun t => !(g.isPseudo t))
    mock beh disk

/-- Embeds `TaskGraph.run_all_out_of_sync(mock_run)`. -/
def run_all_out_of_sync (g : SGraph) (mock : Bool)
    (beh : Nat → Option RunErr) (disk : Storage) : RunResult :=
  run_helper g (get_out_of_sync_tasks g)
    (fun t => !(g.isPseudo t) && !(g.inSync t)) mock beh disk

theorem run_tasks_mock (g : SGraph) (doRun : Nat → Bool)
    (beh : Nat → Option RunErr) :
    ∀ (order : List Nat) (disk : Storage) (saves : Nat),
      run_tasks g doRun true beh order disk saves = ⟨none, disk, saves⟩ := by
  intro order
  induction order with
  | nil => intro disk saves; simp [run_tasks]
  | cons t rest ih =>
    intro disk saves
    by_cases h : doRun t
    · simp [run_tasks, h, ih]
    · simp [run_tasks, h, ih]

theorem run_tasks_success (g : SGraph) (doRun : Nat → Bool)
    (beh : Nat → Option RunErr) :
    ∀ (order : List Nat),
      (∀ t ∈ order, doRun t = true → beh t = none) →
      ∀ (disk : Storage) (saves : Nat),
        run_tasks g doRun false beh order disk saves
          = ⟨none, save_state g disk none, saves + 1⟩ := by
  intro order
  induction order with
  | nil => intro _ disk saves; simp [run_tasks]
  | cons t rest ih =>
    intro hok disk saves
    have hrest : ∀ u ∈ rest, doRun u = true → beh u = none :=
      fun u hu => hok u (List.mem_cons_of_mem _ hu)
    by_cases h : doRun t
    · rw [show run_tasks g doRun false beh (t :: rest) disk saves
          = match beh t with
            | none => run_tasks g doRun false beh rest disk saves
            | some e =>
              ⟨some e.exitCodeOr1,
                save_state g disk (some [(g.nameOf t, "")]), saves + 1⟩
          from by simp [run_tasks, h]]
      rw [hok t (List.mem_cons_self _ _) h]
      exact ih hrest disk saves
    · rw [show run_tasks g doRun false beh (t :: rest) disk saves
          = run_tasks g doRun false beh rest disk saves
          from by simp [run_tasks, h]]
      exact ih hrest disk saves

theorem run_tasks_failure (g : SGraph) (doRun : Nat → Bool)
    (beh : Nat → Option RunErr) (t : Nat) (e : RunErr)
    (ht : doRun t = true) (he : beh t = some e) :
    ∀ (pre post : List Nat),
      (∀ u ∈ pre, doRun u = true → beh u = none) →
      ∀ (disk : Storage) (saves : Nat),
        run_tasks g doRun false beh (pre ++ t :: post) disk saves
          = ⟨some e.exitCodeOr1,
              save_state g disk (some [(g.nameOf t, "")]), saves + 1⟩ := by
  intro pre
  induction pre with
  | nil =>
    intro post _ disk saves
    rw [List.nil_append]
    rw [show run_tasks g doRun false beh (t :: post) disk saves
        = match beh t with
          | none => run_tasks g doRun false beh post disk saves
          | some e =>
            ⟨some e.exitCodeOr1,
              save_state g disk (some [(g.nameOf t, "")]), saves + 1⟩
        from by simp [run_tasks, ht]]
    rw [he]
  | cons u pre ih =>
    intro post hok disk saves
    rw [List.cons_append]
    by_cases h : doRun u
    · rw [show run_tasks g doRun false beh (u :: (pre ++ t :: post)) disk saves
          = match beh u with
            | none => run_tasks g doRun false beh (pre ++ t :: post) disk saves
            | some e2 =>
              ⟨some e2.exitCodeOr1,
                save_state g disk (some [(g.nameOf u, "")]), saves + 1⟩
          from by simp [run_tasks, h]]
      rw [hok u (List.mem_cons_self _ _) h]
      exact ih post (fun v hv => hok v (List.mem_cons_of_mem _ hv)) disk saves
    · rw [show run_tasks g doRun false beh (u :: (pre ++ t :: post)) disk saves
          = run_tasks g doRun false beh (pre ++ t :: post) disk saves
          from by simp [run_tasks, h]]
      exact ih post (fun v hv => hok v (List.mem_cons_of_mem _ hv)) disk saves

theorem save_state_override_hits (g : SGraph) (disk : Storage)
    (n v : String) :
    dget (read_from_storage
        (save_state g disk (some [(n, v)])).stateFile) n = some v := by
  have h1 : NodupKeys (read_from_storage disk.stateFile) :=
    nodupKeys_read disk.stateFile
  have h2 : NodupKeys
      (g.resource_dict.foldl (fun d p => dset d p.1 p.2)
        (read_from_storage disk.stateFile)) :=
    nodupKeys_foldl_dset _ _ h1
  have h3 : NodupKeys (dset
      (g.resource_dict.foldl (fun d p => dset d p.1 p.2)
        (read_from_storage disk.stateFile)) n v) :=
    nodupKeys_dset _ n v h2
  rw [show (save_state g disk (some [(n, v)])).stateFile
      = some (dset (g.resource_dict.foldl (fun d p => dset d p.1 p.2)
          (read_from_storage disk.stateFile)) n v) from rfl]
  rw [read_some_eq_self _ h3, dget_dset]
  simp

/-- C2: in a mock run `_run_helper` never persists state and never exits;
in a non-mock run in which every executed task succeeds, state is
persisted exactly once at the end; and in a non-mock run whose first
failing executed task raises an interruption or shell failure, state is
persisted exactly once with the override clearing that task's resource
fingerprint to the empty string (so the persisted entry for that task is
the empty string) and the process exits with the error's exit code, 1
when the error carries none. -/
theorem run_helper_error_handling (g : SGraph) (starting : List Nat)
    (doRun : Nat → Bool) (beh : Nat → Option RunErr) (disk : Storage) :
    (run_helper g starting doRun true beh disk = ⟨none, disk, 0⟩) ∧
    ((∀ t ∈ iter_graph g.tg starting true, doRun t = true → beh t = none) →
      run_helper g starting doRun false beh disk
        = ⟨none, save_state g disk none, 1⟩) ∧
    (∀ pre t post e,
      iter_graph g.tg starting true = pre ++ t :: post →
      (∀ u ∈ pre, doRun u = true → beh u = none) →
      doRun t = true → beh t = some e →
      run_helper g starting doRun false beh disk
        = ⟨some e.exitCodeOr1,
            save_state g disk (some [(g.nameOf t, "")]), 1⟩ ∧
      dget (read_from_storage
          (run_helper g starting doRun false beh disk).disk.stateFile)
        (g.nameOf t) = some "") := by
  refine ⟨?_, ?_, ?_⟩
  · exact run_tasks_mock g doRun beh _ disk 0
  · intro hok
    exact run_tasks_success g doRun beh _ hok disk 0
  · intro pre t post e horder hok ht he
    have hrun : run_helper g starting doRun false beh disk
        = ⟨some e.exitCodeOr1,
            save_state g disk (some [(g.nameOf t, "")]), 1⟩ := by
      show run_tasks g doRun false beh (iter_graph g.tg starting true) disk 0
          = _
      rw [horder]
      exact run_tasks_failure g doRun beh t e ht he pre post hok disk 0
    refine ⟨hrun, ?_⟩
    rw [hrun]
    exact save_state_override_hits g disk (g.nameOf t) ""

/-- The two-task chain used by the C2 witness: task 0 feeds task 1 and
fails with a `ShellError` carrying exit code 3. -/
def c2G : SGraph where
  tg :=
    { tasks := [0, 1]
      up := fun t => if t = 1 then [0] else []
      down := fun t => if t = 0 then [1] else [] }
  nameOf := fun t => "r" ++ toString t
  idOf := fun t => "t" ++ toString t
  isPseudo := fun _ => false
  inSync := fun _ => false
  resource_dict := [("r0", "cur0"), ("r1", "cur1")]
  task_durations := []
  configPath := "/tmp/wf.yaml"

def c2Beh : Nat → Option RunErr :=
  fun t => if t = 0 then some (.shellError (some 3)) else none

theorem run_helper_error_handling_witness :
    (run_helper c2G [] (fun _ => true) true c2Beh ⟨none, none⟩
      = ⟨none, ⟨none, none⟩, 0⟩) ∧
    (iter_graph c2G.tg [] true = [] ++ 0 :: [1]) ∧
    ((fun _ => true) 0 = true) ∧ (c2Beh 0 = some (.shellError (some 3))) ∧
    (run_helper c2G [] (fun _ => true) false c2Beh ⟨none, none⟩
        = ⟨some 3,
            save_state c2G ⟨none, none⟩ (some [(c2G.nameOf 0, "")]), 1⟩ ∧
      dget (read_from_storage
          (run_helper c2G [] (fun _ => true) false c2Beh
            ⟨none, none⟩).disk.stateFile) (c2G.nameOf 0) = some "") :=
  ⟨(run_helper_error_handling c2G [] (fun _ => true) c2Beh ⟨none, none⟩).1,
    by decide, by decide, by decide,
    (run_helper_error_handling c2G [] (fun _ => true) c2Beh ⟨none, none⟩).2.2
      [] 0 [1] (.shellError (some 3)) (by decide)
      (by intro u hu; simp at hu) (by decide) (by decide)⟩

/-! ### Duration estimation (`duration_string`, `duration_message`) -/

/-- Models Python `"%.2f" % v`: the value times 100 rounded to the
nearest integer (the claims' values are exact hundredths, so no rounding
tie is ever hit), printed with two decimal places. -/
def fmt2 (q : Q) : String :=
  let n : Int := Int.fdiv (200 * q.num + q.den) (2 * q.den)
  let sign := if n < 0 then "-" else ""
  let m := n.natAbs
  let frac := m % 100
  sign ++ toString (m / 100) ++ "." ++ (if frac < 10 then "0" else "")
    ++ toString frac

/-- Embeds `TaskGraph.duration_string(duration)`. -/
def duration_string (d : Q) : String :=
  if d.blt (Q.ofNat (10 * 60)) then fmt2 d ++ " s"
  else if d.blt (Q.ofNat (2 * 60 * 60)) then fmt2 (d.divNat 60) ++ " m"
  else if d.blt (Q.ofNat (2 * 60 * 60 * 24)) then
    fmt2 ((d.divNat 60).divNat 60) ++ " h"
  else fmt2 (((d.divNat 60).divNat 60).divNat 24) ++ " d"

/-- Splits a character list into path components at every slash. -/
def splitSlash : List Char → List (List Char)
  | [] => [[]]
  | c :: rest =>
    if c = '/' then [] :: splitSlash rest
    else
      match splitSlash rest with
      | h :: t => (c :: h) :: t
      | [] => [[c]]

def dropCommon : List String → List String → List String × List String
  | a :: as, b :: bs =>
    if a = b then dropCommon as bs else (a :: as, b :: bs)
  | as, bs => (as, bs)

/-- Models `os.path.relpath(path, cwd)` on the absolute POSIX paths used
here: drop the common component prefix, then go up once per remaining
`cwd` component. -/
def relpath (path cwd : String) : String :=
  let comps := fun (s : String) =>
    ((splitSlash s.toList).filter (fun c => !(c.isEmpty))).map
      (fun c => String.mk c)
  let pc := dropCommon (comps path) (comps cwd)
  let parts := List.replicate pc.2.length ".." ++ pc.1
  if parts.isEmpty then "." else String.intercalate "/" parts

/-- Embeds `TaskGraph.duration_message(tasks, color)`.  `cwd` stands for
`os.getcwd()`; `color` is the optional colouring collaborator (the early
return for an empty task set happens before the colour wrap, exactly as
in the source). -/
def duration_message (g : SGraph) (cwd : String) (tasks : List Nat)
    (color : Option (String → String)) : String :=
  if tasks.length = 0 then
    "No tasks are out of sync in this workflow ("
      ++ relpath g.configPath cwd ++ ")"
  else
    let dur := fun t => dget g.task_durations (g.idOf t)
    let minD := tasks.foldl (fun a t => a.add ((dur t).getD (Q.ofNat 0)))
      (Q.ofNat 0)
    let order := (iter_graph g.tg tasks true).filter (fun t => !(g.isPseudo t))
    let nTasks := order.length
    let nUnknown := (order.filter (fun t => (dur t).isNone)).length
    let maxD := order.foldl (fun a t => a.add ((dur t).getD (Q.ofNat 0)))
      (Q.ofNat 0)
    let msg :=
      (if nUnknown > 0 then
        toString nUnknown ++ " new tasks with unknown durations.\n"
      else "")
      ++ "The remaining " ++ toString tasks.length ++ "-" ++ toString nTasks
        ++ " tasks need to be executed,\n"
      ++ (if (maxD.beqv (Q.ofNat 0)) && (minD.beqv (Q.ofNat 0)) then
            "which will take an indeterminate amount of time."
          else if maxD.beqv minD then
            "which will take approximately " ++ duration_string minD ++ "."
          else
            "which will take between " ++ duration_string minD ++ " and "
              ++ duration_string maxD ++ ".")
    match color with
    | some c => c msg
    | none => msg

/-- Scenario graph: no out-of-sync tasks, workflow at `/tmp/wf.yaml`. -/
def c9Empty : SGraph where
  tg := { tasks := [], up := fun _ => [], down := fun _ => [] }
  nameOf := fun t => "r" ++ toString t
  idOf := fun t => "t" ++ toString t
  isPseudo := fun _ => false
  inSync := fun _ => false
  resource_dict := []
  task_durations := []
  configPath := "/tmp/wf.yaml"

/-- Scenario graph: a single task with recorded duration 5.0 s and no
downstream successor. -/
def c9One : SGraph where
  tg := { tasks := [0], up := fun _ => [], down := fun _ => [] }
  nameOf := fun t => "r" ++ toString t
  idOf := fun t => "t" ++ toString t
  isPseudo := fun _ => false
  inSync := fun _ => false
  resource_dict := []
  task_durations := [("t0", Q.ofNat 5)]
  configPath := "/tmp/wf.yaml"

/-- Scenario graph: a single task of unknown duration whose only
downstream successor has 7200 s recorded. -/
def c9Two : SGraph where
  tg :=
    { tasks := [0, 1]
      up := fun t => if t = 1 then [0] else []
      down := fun t => if t = 0 then [1] else [] }
  nameOf := fun t => "r" ++ toString t
  idOf := fun t => "t" ++ toString t
  isPseudo := fun _ => false
  inSync := fun _ => false
  resource_dict := []
  task_durations := [("t1", Q.ofNat 7200)]
  configPath := "/tmp/wf.yaml"

/-- C9: duration_string renders with two decimal places under the strict
thresholds (seconds below 10 minutes, minutes below 2 hours, hours below
2 days, days otherwise), and duration_message satisfies the three
specification scenarios: an empty task set reports that no tasks are out
of sync with the workflow path; a single task with recorded duration
5.0 s and no downstream reports exactly "5.00 s"; a single task of
unknown duration whose only downstream successor has 7200 s recorded
reports 1 unknown task and a range ending at "2.00 h". -/
theorem duration_reporting (d : Q) :
    (d.blt (Q.ofNat (10 * 60)) = true →
      duration_string d = fmt2 d ++ " s") ∧
    (d.blt (Q.ofNat (10 * 60)) = false →
      d.blt (Q.ofNat (2 * 60 * 60)) = true →
      duration_string d = fmt2 (d.divNat 60) ++ " m") ∧
    (d.blt (Q.ofNat (10 * 60)) = false →
      d.blt (Q.ofNat (2 * 60 * 60)) = false →
      d.blt (Q.ofNat (2 * 60 * 60 * 24)) = true →
      duration_string d = fmt2 ((d.divNat 60).divNat 60) ++ " h") ∧
    (d.blt (Q.ofNat (10 * 60)) = false →
      d.blt (Q.ofNat (2 * 60 * 60)) = false →
      d.blt (Q.ofNat (2 * 60 * 60 * 24)) = false →
      duration_string d
        = fmt2 (((d.divNat 60).divNat 60).divNat 24) ++ " d") ∧
    (duration_message c9Empty "/tmp" [] none
      = "No tasks are out of sync in this workflow (wf.yaml)") ∧
    (duration_message c9One "/tmp" [0] none
      = "The remaining 1-1 tasks need to be executed,\n"
        ++ "which will take approximately 5.00 s.") ∧
    (duration_message c9Two "/tmp" [0] none
      = "1 new tasks with unknown durations.\n"
        ++ "The remaining 1-2 tasks need to be executed,\n"
        ++ "which will take between 0.00 s and 2.00 h.") := by
  refine ⟨?_, ?_, ?_, ?_, by decide, by decide, by decide⟩
  · intro h; simp [duration_string, h]
  · intro h1 h2; simp [duration_string, h1, h2]
  · intro h1 h2 h3; simp [duration_string, h1, h2, h3]
  · intro h1 h2 h3; simp [duration_string, h1, h2, h3]

theorem duration_reporting_witness :
    ((Q.ofNat 5).blt (Q.ofNat (10 * 60)) = true ∧
      duration_string (Q.ofNat 5) = fmt2 (Q.ofNat 5) ++ " s") ∧
    ((Q.ofNat 7200).blt (Q.ofNat (10 * 60)) = false ∧
      (Q.ofNat 7200).blt (Q.ofNat (2 * 60 * 60)) = false ∧
      (Q.ofNat 7200).blt (Q.ofNat (2 * 60 * 60 * 24)) = true ∧
      duration_string (Q.ofNat 7200)
        = fmt2 (((Q.ofNat 7200).divNat 60).divNat 60) ++ " h") ∧
    duration_message c9One "/tmp" [0] none
      = "The remaining 1-1 tasks need to be executed,\n"
        ++ "which will take approximately 5.00 s." :=
  ⟨⟨by decide, (duration_reporting (Q.ofNat 5)).1 (by decide)⟩,
    ⟨by decide, by decide, by decide,
      (duration_reporting (Q.ofNat 7200)).2.2.1 (by decide) (by decide)
        (by decide)⟩,
    (duration_reporting (Q.ofNat 5)).2.2.2.2.2.1⟩

/-! ### Graph construction (`TaskGraph.__init__`, `add`,
`_dereference_depends_aliases`, `_link_dependencies`, `get_tasks`,
`subgraph_needed_for`)

Tasks are modelled by value; Python's references to task objects are
modelled by the task's unique `creates` identifier, resolved against the
current `task_list`.  The file system (for the existence checks of
`_link_dependency_helper`) is the predicate `fs`. -/

/-- A `depends` declaration: absent, a single identifier, or a list. -/
inductive DependsV where
  | noneD
  | one (s : String)
  | many (l : List String)
deriving DecidableEq, Repr

/-- A task declaration record — the `yaml_data` a task keeps verbatim so
that `subgraph_needed_for` can rebuild a fresh graph from it. -/
structure TaskDecl where
  creates : String
  «alias» : Option String
  depends : DependsV
  tags : List String
  pseudo : Bool
deriving DecidableEq, Repr

/-- A task object of the construction model: its declaration fields, the
original declaration, and the link fields maintained by
`add_task_dependency` (upstream/downstream neighbours by `creates` id;
the Task collaborator keeps them as mutually-maintained sets). -/
structure CTask where
  creates : String
  «alias» : Option String
  depends : DependsV
  tags : List String
  pseudo : Bool
  yaml : TaskDecl
  upstreamIds : List String
  downstreamIds : List String
deriving DecidableEq, Repr

def mkCTask (d : TaskDecl) : CTask :=
  ⟨d.creates, d.«alias», d.depends, d.tags, d.pseudo, d, [], []⟩

/-- Models `task.depends_list`: the `depends` value normalised to a
list. -/
def CTask.depends_list (t : CTask) : List String :=
  match t.depends with
  | .noneD => []
  | .one s => [s]
  | .many l => l

/-- Modelled from the spec: `creates_list` (a Task collaborator
capability not part of this repository's sources) enumerates the task's
declared outputs; a task declares the single output `creates`. -/
def CTask.creates_list (t : CTask) : List String := [t.creates]

def CTask.has_tag (t : CTask) (tag : String) : Bool := t.tags.contains tag

/-- The in-memory graph built by `TaskGraph.__init__`: the ordered task
list, the lookup dictionary keyed by `creates` and alias (values are the
task's `creates` id, standing for the reference to the task object), the
resource names, and the loaded duration table. -/
structure CGraph where
  configPath : String
  task_list : List CTask
  task_dict : List (String × String)
  resource_dict : List String
  task_durations : List (String × Q)
deriving DecidableEq, Repr

def emptyGraph (config_path : String) : CGraph :=
  ⟨config_path, [], [], [], []⟩

def CGraph.find_task (g : CGraph) (c : String) : Option CTask :=
  g.task_list.find? (fun t => t.creates == c)

/-- Embeds `TaskGraph.add(task)`: the task is appended to `task_list`
first; then a duplicate alias key raises `NonUniqueTask`, then the alias
key is entered, then a duplicate `creates` key raises, then the
`creates` key is entered. -/
def add (g : CGraph) (t : CTask) : Except PyErr CGraph :=
  let g1 := { g with task_list := g.task_list ++ [t] }
  match t.«alias» with
  | some a =>
    if (dget g1.task_dict a).isSome then .error (.nonUniqueTask a)
    else
      let g2 := { g1 with task_dict := dset g1.task_dict a t.creates }
      if (dget g2.task_dict t.creates).isSome then
        .error (.nonUniqueTask t.creates)
      else .ok { g2 with task_dict := dset g2.task_dict t.creates t.creates }
  | none =>
    if (dget g1.task_dict t.creates).isSome then
      .error (.nonUniqueTask t.creates)
    else .ok { g1 with task_dict := dset g1.task_dict t.creates t.creates }

/-- The construction loop of `TaskGraph.__init__`
(`for task_kwargs in task_kwargs_list: task = Task(self, **task_kwargs)`;
per the Task collaborator contract, `Task.__init__` registers the task in
the graph through `TaskGraph.add`).  The first raised error aborts the
loop. -/
def add_tasks : CGraph → List TaskDecl → Except PyErr CGraph
  | g, [] => .ok g
  | g, d :: ds =>
    match add g (mkCTask d) with
    | .ok g2 => add_tasks g2 ds
    | .error e => .error e

/-- Embeds `TaskGraph._dereference_alias_helper(name)`: the `creates` of
the first task in `task_list` whose alias equals `name` (`None` when no
alias matches or `name` is `None`). -/
def dereference_alias_helper (tl : List CTask) (name : Option String) :
    Option String :=
  match name with
  | none => none
  | some n => (tl.find? (fun t => t.«alias» == some n)).map CTask.creates

/-- One task's step of `_dereference_depends_aliases`: every depends
entry whose alias dereference is non-`None` is replaced.  The helper
scans `task_list` but reads only `alias`/`creates`, which this pass never
modifies, so scanning the original list is equivalent to Python's
in-place iteration. -/
def deref_task (tl : List CTask) (t : CTask) : CTask :=
  match t.depends with
  | .many ds =>
    { t with depends := .many (ds.map (fun d =>
        (dereference_alias_helper tl (some d)).getD d)) }
  | .one d =>
    { t with depends := .one ((dereference_alias_helper tl (some d)).getD d) }
  | .noneD => t

/-- Embeds `TaskGraph._dereference_depends_aliases`. -/
def dereference_depends_aliases (tl : List CTask) : List CTask :=
  tl.map (deref_task tl)

/-- Models `os.path.dirname` on the POSIX paths used here. -/
def dropLastComponent : List Char → List Char
  | [] => []
  | c :: rest =>
    if '/' ∈ rest then c :: dropLastComponent rest else []

def dirname (p : String) : String := String.mk (dropLastComponent p.toList)

def isAbs (b : String) : Bool :=
  match b.toList with
  | '/' :: _ => true
  | _ => false

/-- Models `os.path.join(root, dep)` for the link existence check. -/
def pathJoin (a b : String) : String :=
  if isAbs b then b else if a = "" then b else a ++ "/" ++ b

/-- Models `resources.get_or_create`: resource names are entered into the
graph's resource mapping, reusing entries already present. -/
def get_or_create_resources (acc : List String) (names : List String) :
    List String :=
  names.foldl (fun acc n => if n ∈ acc then acc else acc ++ [n]) acc

/-- Embeds `TaskGraph._link_dependency_helper(task, dependency)` for each
dependency of one task, in order: a dependency that is a `task_dict` key
yields the edge `(dependent task, this task)` (registered in both
directions by `add_task_dependency`, per the Task collaborator contract);
otherwise the joined path must exist on the file system, else
`InvalidTaskDefinition` is raised. -/
def link_deps_of (fs : String → Bool) (root : String)
    (task_dict : List (String × String)) (t : CTask) :
    List String → Except PyErr (List (String × String))
  | [] => .ok []
  | d :: ds =>
    match dget task_dict d with
    | some c =>
      match link_deps_of fs root task_dict t ds with
      | .ok es => .ok ((c, t.creates) :: es)
      | .error e => .error e
    | none =>
      if fs (pathJoin root d) then link_deps_of fs root task_dict t ds
      else .error (.invalidTaskDefinition d)

/-- The loop of `TaskGraph._link_dependencies`: per task in order,
instantiate the resources for `depends_list` and `creates_list`, drop the
`creates` resource again for pseudotasks, and link every dependency. -/
def link_loop (fs : String → Bool) (root : String)
    (task_dict : List (String × String)) :
    List CTask → List String → List (String × String) →
    Except PyErr (List String × List (String × String))
  | [], res, edges => .ok (res, edges)
  | t :: rest, res, edges =>
    let res1 := get_or_create_resources res (t.depends_list ++ t.creates_list)
    let res2 := if t.pseudo then res1.erase t.creates else res1
    match link_deps_of fs root task_dict t t.depends_list with
    | .error e => .error e
    | .ok es => link_loop fs root task_dict rest res2 (edges ++ es)

/-- Distributes the collected dependency edges onto each task's
upstream/downstream neighbour sets. -/
def apply_links (edges : List (String × String)) (t : CTask) : CTask :=
  { t with
    upstreamIds := ((edges.filter (fun e => e.2 == t.creates)).map
      Prod.fst).eraseDups
    downstreamIds := ((edges.filter (fun e => e.1 == t.creates)).map
      Prod.snd).eraseDups }

/-- Embeds `TaskGraph.__init__(config_path, task_kwargs_list)`: add all
tasks (aborting on the first `NonUniqueTask`), dereference depends
aliases, link dependencies against the file system, and load the
persisted duration state. -/
def construct (fs : String → Bool) (disk : Storage) (config_path : String)
    (decls : List TaskDecl) : Except PyErr CGraph :=
  match add_tasks (emptyGraph config_path) decls with
  | .error e => .error e
  | .ok g =>
    let tl := dereference_depends_aliases g.task_list
    match link_loop fs (dirname config_path) g.task_dict tl [] [] with
    | .error e => .error e
    | .ok (res, edges) =>
      match load_state disk with
      | .error e => .error e
      | .ok dur =>
        .ok { g with
          task_list := tl.map (apply_links edges)
          resource_dict := res
          task_durations := dur }

/-- Embeds `TaskGraph.get_tasks(task_id_or_tag)`.  An exact
`creates`/alias key resolves to the single task.  Otherwise the code
collects the tasks carrying the identifier as a tag into a local list,
but the `return` line then evaluates `self.tag_dict.get(task)`: no
`tag_dict` attribute is ever defined on `TaskGraph`, so the tag path
raises `AttributeError` and the collected list is discarded.  (The
`.ok []` fallback is unreachable on constructed graphs, where every
`task_dict` value names a task of `task_list`.) -/
def get_tasks (g : CGraph) (task_id_or_tag : String) :
    Except PyErr (List CTask) :=
  match dget g.task_dict task_id_or_tag with
  | some c =>
    match g.find_task c with
    | some t => .ok [t]
    | none => .ok []
  | none => .error .attributeError

/-- The traversal of a constructed graph: tasks are identified by their
`creates` id and the neighbour sets come from the linked task objects.
This is `TaskGraph.iter_graph` again (the same `iterAux` core),
instantiated at the construction model. -/
def upstream_of (g : CGraph) (c : String) : List String :=
  match g.find_task c with
  | some t => t.upstreamIds
  | none => []

def downstream_of (g : CGraph) (c : String) : List String :=
  match g.find_task c with
  | some t => t.downstreamIds
  | none => []

def sources_c (g : CGraph) : List String :=
  (g.task_list.filter (fun t => t.upstreamIds.isEmpty)).map CTask.creates

def sinks_c (g : CGraph) : List String :=
  (g.task_list.filter (fun t => t.downstreamIds.isEmpty)).map CTask.creates

def iter_graph_c (g : CGraph) (starts : List String) (downstream : Bool) :
    List String :=
  let seeds :=
    if starts.isEmpty then
      if downstream then sources_c g else sinks_c g
    else starts
  if downstream then
    iterAux (downstream_of g) true (g.task_list.length + seeds.length)
      seeds [] []
  else
    iterAux (upstream_of g) false (g.task_list.length + seeds.length)
      seeds [] []

/-- The `tasks.extend(self.get_tasks(task_id))` loop of
`subgraph_needed_for`; the first raised error propagates. -/
def collect_tasks (g : CGraph) : List String → Except PyErr (List CTask)
  | [] => .ok []
  | i :: is =>
    match get_tasks g i with
    | .error e => .error e
    | .ok ts =>
      match collect_tasks g is with
      | .error e => .error e
      | .ok rest => .ok (ts ++ rest)

/-- The non-empty branch of `subgraph_needed_for`: resolve the requested
identifiers, traverse upstream from those tasks, collect the original
declarations in traversal order, and construct a brand-new graph from the
same configuration path. -/
def build_subgraph (fs : String → Bool) (disk : Storage) (g : CGraph)
    (task_ids : List String) : Except PyErr CGraph :=
  match collect_tasks g task_ids with
  | .error e => .error e
  | .ok tasks =>
    let order := iter_graph_c g (tasks.map CTask.creates) false
    let decls := (order.filterMap g.find_task).map CTask.yaml
    construct fs disk g.configPath decls

/-- Embeds `TaskGraph.subgraph_needed_for(task_ids)`: a falsy (empty)
identifier collection returns `self` itself, before any other work;
otherwise a new graph is built from the collected declarations. -/
def subgraph_needed_for (fs : String → Bool) (disk : Storage) (g : CGraph)
    (task_ids : List String) : Except PyErr CGraph :=
  if task_ids.isEmpty then .ok g
  else build_subgraph fs disk g task_ids

/-- The concrete graph for the C5 and C10 evaluations: one task `a`
(tagged `nightly`) feeding task `b`, with an in-memory duration entry
that no fresh construction over empty storage could reproduce. -/
def c5Task : CTask :=
  { creates := "a"
    «alias» := some "build-a"
    depends := DependsV.noneD
    tags := ["nightly"]
    pseudo := false
    yaml := ⟨"a", some "build-a", DependsV.noneD, ["nightly"], false⟩
    upstreamIds := []
    downstreamIds := ["b"] }

def c5TaskB : CTask :=
  { creates := "b"
    «alias» := none
    depends := DependsV.one "a"
    tags := []
    pseudo := false
    yaml := ⟨"b", none, DependsV.one "a", [], false⟩
    upstreamIds := ["a"]
    downstreamIds := [] }

def c5G : CGraph :=
  { configPath := "/tmp/wf.yaml"
    task_list := [c5Task, c5TaskB]
    task_dict := [("build-a", "a"), ("a", "a"), ("b", "b")]
    resource_dict := ["a", "b"]
    task_durations := [("a", Q.ofNat 5)] }

/-- C5 (code bug): an identifier matching a task's `creates` or alias
resolves to the single-element list containing that task, but an
identifier carried only as a tag does not resolve to the tagged tasks:
the code builds that list and then returns `self.tag_dict.get(task)`,
and `TaskGraph` defines no `tag_dict` attribute, so the tag path raises
`AttributeError` instead. -/
theorem get_tasks_tag_raises :
    get_tasks c5G "a" = .ok [c5Task] ∧
    get_tasks c5G "build-a" = .ok [c5Task] ∧
    get_tasks c5G "nightly" = .error .attributeError ∧
    (c5G.task_list.filter (fun t => t.has_tag "nightly")) = [c5Task] := by
  refine ⟨by decide, by decide, by decide, by decide⟩

/-- C10: subgraph_needed_for with an empty (falsy) identifier collection
returns the very same graph instance unchanged and performs no
construction; only a non-empty collection triggers construction of a new
graph via `build_subgraph`.  The concrete conjunct separates the two: on
`c5G` over empty storage, the empty call returns `c5G` itself while a
fresh construction from `c5G`'s own declarations yields a different graph
(its duration table is reloaded as empty). -/
theorem subgraph_needed_for_empty_is_self (fs : String → Bool)
    (disk : Storage) (g : CGraph) (ids : List String) (hne : ids ≠ []) :
    (subgraph_needed_for fs disk g [] = .ok g) ∧
    (subgraph_needed_for fs disk g ids = build_subgraph fs disk g ids) ∧
    (subgraph_needed_for (fun _ => true) ⟨none, none⟩ c5G [] = .ok c5G) ∧
    (construct (fun _ => true) ⟨none, none⟩ c5G.configPath
        (c5G.task_list.map CTask.yaml) ≠ .ok c5G) := by
  refine ⟨rfl, ?_, rfl, by decide⟩
  show (if ids.isEmpty then Except.ok g else build_subgraph fs disk g ids)
      = build_subgraph fs disk g ids
  rw [if_neg]
  simp only [List.isEmpty_iff]
  exact hne

theorem subgraph_needed_for_empty_is_self_witness :
    (["a"] : List String) ≠ [] ∧
    ((subgraph_needed_for (fun _ => true) ⟨none, none⟩ c5G []
        = .ok c5G) ∧
      (subgraph_needed_for (fun _ => true) ⟨none, none⟩ c5G ["a"]
        = build_subgraph (fun _ => true) ⟨none, none⟩ c5G ["a"]) ∧
      (subgraph_needed_for (fun _ => true) ⟨none, none⟩ c5G [] = .ok c5G) ∧
      (construct (fun _ => true) ⟨none, none⟩ c5G.configPath
          (c5G.task_list.map CTask.yaml) ≠ .ok c5G)) :=
  ⟨by decide,
    subgraph_needed_for_empty_is_self (fun _ => true) ⟨none, none⟩ c5G ["a"]
      (by decide)⟩

/-! ### Uniqueness of task keys (C7) -/

/-- The lookup keys a declaration contributes: its `creates` id and its
non-null alias. -/
def declKeys (d : TaskDecl) : List String := d.creates :: d.«alias».toList

def allKeys : List TaskDecl → List String
  | [] => []
  | d :: ds => declKeys d ++ allKeys ds

theorem add_ok_facts (g : CGraph) (t : CTask) (g2 : CGraph)
    (h : add g t = .ok g2) :
    dget g.task_dict t.creates = none ∧
    (∀ a, t.«alias» = some a → dget g.task_dict a = none ∧ a ≠ t.creates) ∧
    (∀ k, (dget g2.task_dict k).isSome = true ↔
      ((dget g.task_dict k).isSome = true ∨ k = t.creates ∨
        t.«alias» = some k)) := by
  cases halias : t.«alias» with
  | none =>
    by_cases hc : (dget g.task_dict t.creates).isSome
    · simp [add, halias, hc] at h
    · simp only [add, halias, hc, if_false, Bool.false_eq_true,
        if_neg (fun hh => hc hh)] at h
      obtain rfl : ({ g with
          task_list := g.task_list ++ [t]
          task_dict := dset g.task_dict t.creates t.creates } : CGraph)
          = g2 := by
        exact Except.ok.inj h
      refine ⟨Option.not_isSome_iff_eq_none.mp hc, ?_, ?_⟩
      · intro a ha; exact absurd ha (by simp)
      · intro k
        show (dget (dset g.task_dict t.creates t.creates) k).isSome
            = true ↔ _
        rw [dget_dset]
        by_cases hk : k = t.creates
        · simp [hk]
        · simp [hk, halias]
  | some a =>
    by_cases h1 : (dget g.task_dict a).isSome
    · simp [add, halias, h1] at h
    · by_cases h2 :
        (dget (dset g.task_dict a t.creates) t.creates).isSome
      · simp [add, halias, h1, h2] at h
      · simp only [add, halias, h1, h2, Bool.false_eq_true, if_false,
          if_neg (fun hh => h1 hh), if_neg (fun hh => h2 hh)] at h
        obtain rfl : ({ g with
            task_list := g.task_list ++ [t]
            task_dict := dset (dset g.task_dict a t.creates)
              t.creates t.creates } : CGraph) = g2 := by
          exact Except.ok.inj h
        have hgetc := h2
        rw [dget_dset] at hgetc
        by_cases hca : t.creates = a
        · simp [hca] at hgetc
        · rw [if_neg hca] at hgetc
          refine ⟨Option.not_isSome_iff_eq_none.mp hgetc, ?_, ?_⟩
          · intro a2 ha2
            obtain rfl : a = a2 := Option.some.inj ha2
            exact ⟨Option.not_isSome_iff_eq_none.mp h1,
              fun he => hca he.symm⟩
          · intro k
            show (dget (dset (dset g.task_dict a t.creates)
                t.creates t.creates) k).isSome = true ↔ _
            rw [dget_dset]
            by_cases hk : k = t.creates
            · simp [hk]
            · rw [if_neg hk, dget_dset]
              by_cases hka : k = a
              · simp [hka]
              · rw [if_neg (fun hh : k = a => hka hh)]
                constructor
                · exact fun hs => Or.inl hs
                · rintro (hs | hk2 | hak)
                  · exact hs
                  · exact absurd hk2 hk
                  · exact absurd (Option.some.inj hak).symm hka

theorem add_tasks_ok_nodup :
    ∀ (decls : List TaskDecl) (g gf : CGraph),
      add_tasks g decls = .ok gf →
      (allKeys decls).Nodup ∧
      (∀ k ∈ allKeys decls, dget g.task_dict k = none) := by
  intro decls
  induction decls with
  | nil => intro g gf _; simp [allKeys]
  | cons d ds ih =>
    intro g gf h
    cases hadd : add g (mkCTask d) with
    | error e => simp [add_tasks, hadd] at h
    | ok g2 =>
      simp only [add_tasks, hadd] at h
      obtain ⟨hnd, hfresh⟩ := ih g2 gf h
      obtain ⟨hc, hal, hiff⟩ := add_ok_facts g (mkCTask d) g2 hadd
      have hmkc : (mkCTask d).creates = d.creates := rfl
      have hmka : (mkCTask d).«alias» = d.«alias» := rfl
      have hdk : ∀ k ∈ declKeys d, k = d.creates ∨ d.«alias» = some k := by
        intro k hk
        rcases List.mem_cons.mp hk with rfl | hk2
        · exact Or.inl rfl
        · cases ha : d.«alias» with
          | none => rw [ha] at hk2; simp at hk2
          | some a =>
            rw [ha] at hk2
            simp at hk2
            exact Or.inr (by rw [hk2])
      have hg2some : ∀ k ∈ declKeys d,
          (dget g2.task_dict k).isSome = true := by
        intro k hk
        rw [hiff k, hmkc, hmka]
        rcases hdk k hk with rfl | hk2
        · exact Or.inr (Or.inl rfl)
        · exact Or.inr (Or.inr hk2)
      constructor
      · show (declKeys d ++ allKeys ds).Nodup
        rw [List.nodup_append]
        refine ⟨?_, hnd, ?_⟩
        · show (d.creates :: d.«alias».toList).Nodup
          cases ha : d.«alias» with
          | none => simp
          | some a =>
            show (d.creates :: (some a).toList).Nodup
            refine List.nodup_cons.mpr ⟨?_, by simp⟩
            intro hmem
            have he : d.creates = a := by simpa using hmem
            exact (hal a (by rw [hmka, ha])).2 he.symm
        · intro k hk hk2
          have hn := hfresh k hk2
          have hs := hg2some k hk
          rw [hn] at hs
          simp at hs
      · intro k hk
        rcases List.mem_append.mp hk with hk1 | hk2
        · rcases hdk k hk1 with rfl | hk3
          · exact hmkc ▸ hc
          · exact (hal k (by rw [hmka, hk3])).1
        · have hn := hfresh k hk2
          have : ¬ ((dget g.task_dict k).isSome = true ∨
              k = (mkCTask d).creates ∨ (mkCTask d).«alias» = some k) := by
            rw [← hiff k, hn]
            simp
          push_neg at this
          exact Option.not_isSome_iff_eq_none.mp (by
            intro hs
            exact absurd hs (by simpa using this.1))

/-- C7: adding a task whose `creates` id or whose non-null alias already
occurs as a key of the task lookup raises the non-unique-task error; the
raised error aborts construction (no later declaration is processed, and
the construction pipeline returns the very same error before any alias
dereferencing, dependency linking or state loading); and for every
successfully constructed graph all `creates` ids and all non-null aliases
are pairwise distinct. -/
theorem construction_uniqueness :
    (∀ (g : CGraph) (t : CTask),
      ((∃ a, t.«alias» = some a ∧ (dget g.task_dict a).isSome = true) ∨
        (dget g.task_dict t.creates).isSome = true) →
      ∃ k, add g t = .error (.nonUniqueTask k)) ∧
    (∀ (g : CGraph) (l1 l2 : List TaskDecl) (e : PyErr),
      add_tasks g l1 = .error e → add_tasks g (l1 ++ l2) = .error e) ∧
    (∀ (fs : String → Bool) (disk : Storage) (cfg : String)
        (decls : List TaskDecl) (e : PyErr),
      add_tasks (emptyGraph cfg) decls = .error e →
      construct fs disk cfg decls = .error e) ∧
    (∀ (fs : String → Bool) (disk : Storage) (cfg : String)
        (decls : List TaskDecl) (g : CGraph),
      construct fs disk cfg decls = .ok g → (allKeys decls).Nodup) := by
  refine ⟨?_, ?_, ?_, ?_⟩
  · intro g t hdup
    cases halias : t.«alias» with
    | none =>
      rcases hdup with ⟨a, ha, _⟩ | hcr
      · exact absurd (halias ▸ ha) (by simp)
      · exact ⟨t.creates, by simp [add, halias, hcr]⟩
    | some a =>
      by_cases h1 : (dget g.task_dict a).isSome
      · exact ⟨a, by simp [add, halias, h1]⟩
      · have hcr : (dget g.task_dict t.creates).isSome = true := by
          rcases hdup with ⟨a2, ha2, hs2⟩ | hcr
          · rw [halias] at ha2
            obtain rfl : a = a2 := Option.some.inj ha2
            exact absurd hs2 (by simp [h1])
          · exact hcr
        refine ⟨t.creates, ?_⟩
        have h2 : (dget (dset g.task_dict a t.creates) t.creates).isSome
            = true := by
          rw [dget_dset]
          by_cases hca : t.creates = a
          · simp [hca]
          · rw [if_neg hca]; exact hcr
        simp [add, halias, h1, h2]
  · intro g l1 l2 e herr
    induction l1 generalizing g with
    | nil => simp [add_tasks] at herr
    | cons d ds ih =>
      cases hadd : add g (mkCTask d) with
      | error e2 =>
        simp only [add_tasks, hadd] at herr ⊢
        exact herr
      | ok g2 =>
        simp only [add_tasks, hadd] at herr ⊢
        exact ih g2 herr
  · intro fs disk cfg decls e herr
    simp [construct, herr]
  · intro fs disk cfg decls g h
    cases hadd : add_tasks (emptyGraph cfg) decls with
    | error e => simp [construct, hadd] at h
    | ok g0 => exact (add_tasks_ok_nodup decls _ _ hadd).1

def c7Decls : List TaskDecl :=
  [⟨"a", some "build-a", DependsV.noneD, [], false⟩,
    ⟨"b", none, DependsV.one "a", [], false⟩]

def c7DeclDup : TaskDecl := ⟨"a", none, DependsV.noneD, [], false⟩

def c7Gres : CGraph :=
  (construct (fun _ => true) ⟨none, none⟩ "/tmp/wf.yaml"
    c7Decls).toOption.getD (emptyGraph "")

theorem construction_uniqueness_witness :
    ((∃ a, (mkCTask c7DeclDup).«alias» = some a ∧
        (dget c5G.task_dict a).isSome = true) ∨
      (dget c5G.task_dict (mkCTask c7DeclDup).creates).isSome = true) ∧
    (∃ k, add c5G (mkCTask c7DeclDup) = .error (.nonUniqueTask k)) ∧
    (add_tasks (emptyGraph "/tmp/wf.yaml") [c7DeclDup, c7DeclDup]
      = .error (.nonUniqueTask "a")) ∧
    (add_tasks (emptyGraph "/tmp/wf.yaml")
        ([c7DeclDup, c7DeclDup] ++ c7Decls)
      = .error (.nonUniqueTask "a")) ∧
    (construct (fun _ => true) ⟨none, none⟩ "/tmp/wf.yaml"
        [c7DeclDup, c7DeclDup] = .error (.nonUniqueTask "a")) ∧
    (construct (fun _ => true) ⟨none, none⟩ "/tmp/wf.yaml" c7Decls
      = .ok c7Gres) ∧
    (allKeys c7Decls).Nodup :=
  ⟨Or.inr (by decide),
    construction_uniqueness.1 c5G (mkCTask c7DeclDup) (Or.inr (by decide)),
    by decide,
    construction_uniqueness.2.1 (emptyGraph "/tmp/wf.yaml")
      [c7DeclDup, c7DeclDup] c7Decls (.nonUniqueTask "a") (by decide),
    construction_uniqueness.2.2.1 (fun _ => true) ⟨none, none⟩
      "/tmp/wf.yaml" [c7DeclDup, c7DeclDup] (.nonUniqueTask "a")
      (by decide),
    by decide,
    construction_uniqueness.2.2.2 (fun _ => true) ⟨none, none⟩
      "/tmp/wf.yaml" c7Decls c7Gres (by decide)⟩

/-! ### Alias dereferencing is a replacement map and idempotent (C8) -/

def taskKeys (t : CTask) : List String := t.creates :: t.«alias».toList

def allTaskKeys : List CTask → List String
  | [] => []
  | t :: ts => taskKeys t ++ allTaskKeys ts

theorem deref_task_preserves (tl : List CTask) (t : CTask) :
    (deref_task tl t).creates = t.creates ∧
    (deref_task tl t).«alias» = t.«alias» := by
  cases h : t.depends <;> simp [deref_task, h]

theorem find_alias_map (tl0 : List CTask) (n : String) :
    ∀ tl : List CTask,
      dereference_alias_helper (tl.map (deref_task tl0)) (some n)
        = dereference_alias_helper tl (some n) := by
  intro tl
  induction tl with
  | nil => rfl
  | cons u us ih =>
    have hpres : (deref_task tl0 u).«alias» = u.«alias» :=
      (deref_task_preserves tl0 u).2
    show ((deref_task tl0 u :: us.map (deref_task tl0)).find?
        (fun t => t.«alias» == some n)).map CTask.creates
      = ((u :: us).find? (fun t => t.«alias» == some n)).map CTask.creates
    cases hp : u.«alias» == some n with
    | true =>
      rw [show (deref_task tl0 u :: us.map (deref_task tl0)).find?
            (fun t => t.«alias» == some n) = some (deref_task tl0 u) from by
          simp [List.find?_cons, hpres, hp]]
      rw [show (u :: us).find? (fun t => t.«alias» == some n) = some u
          from by simp [List.find?_cons, hp]]
      simp [(deref_task_preserves tl0 u).1]
    | false =>
      rw [show (deref_task tl0 u :: us.map (deref_task tl0)).find?
            (fun t => t.«alias» == some n)
          = (us.map (deref_task tl0)).find?
            (fun t => t.«alias» == some n) from by
          simp [List.find?_cons, hpres, hp]]
      rw [show (u :: us).find? (fun t => t.«alias» == some n)
          = us.find? (fun t => t.«alias» == some n) from by
          simp [List.find?_cons, hp]]
      exact ih

theorem helper_some_facts (tl : List CTask) (n c : String)
    (h : dereference_alias_helper tl (some n) = some c) :
    ∃ u ∈ tl, u.«alias» = some n ∧ u.creates = c := by
  have h2 : ((tl.find? (fun t => t.«alias» == some n)).map
      CTask.creates) = some c := h
  rcases Option.map_eq_some'.mp h2 with ⟨u, hu, hc⟩
  refine ⟨u, List.mem_of_find?_eq_some hu, ?_, hc⟩
  have hb := List.find?_some hu
  exact eq_of_beq hb

theorem mem_allTaskKeys_of_mem {x : String} :
    ∀ (ts : List CTask) (w : CTask), w ∈ ts → x ∈ taskKeys w →
      x ∈ allTaskKeys ts := by
  intro ts
  induction ts with
  | nil => intro w hw; simp at hw
  | cons t ts ih =>
    intro w hw hx
    show x ∈ taskKeys t ++ allTaskKeys ts
    rcases List.mem_cons.mp hw with rfl | hw2
    · exact List.mem_append_left _ hx
    · exact List.mem_append_right _ (ih w hw2 hx)

theorem taskKeys_nodup_no_self (t : CTask) (h : (taskKeys t).Nodup)
    (ha : t.«alias» = some t.creates) : False := by
  rw [show taskKeys t = t.creates :: t.«alias».toList from rfl,
    List.nodup_cons] at h
  exact h.1 (by rw [ha]; simp)

theorem nodup_keys_no_alias_creates :
    ∀ tl : List CTask, (allTaskKeys tl).Nodup →
      ∀ u ∈ tl, ∀ w ∈ tl, w.«alias» = some u.creates → False := by
  intro tl
  induction tl with
  | nil => intro _ u hu; simp at hu
  | cons t ts ih =>
    intro hnd u hu w hw hw2
    have hsplit : (taskKeys t).Nodup ∧ (allTaskKeys ts).Nodup ∧
        ∀ x ∈ taskKeys t, x ∉ allTaskKeys ts := by
      have h := hnd
      rw [show allTaskKeys (t :: ts) = taskKeys t ++ allTaskKeys ts
        from rfl, List.nodup_append] at h
      exact ⟨h.1, h.2.1, h.2.2⟩
    rcases List.mem_cons.mp hu with hu1 | hu2
    · rcases List.mem_cons.mp hw with hw1 | hw3
      · exact taskKeys_nodup_no_self t (hsplit.1)
          (by rw [← hw1, hw2, hu1, ← hw1])
      · have h1 : u.creates ∈ taskKeys t := by
          rw [← hu1]; exact List.mem_cons_self _ _
        have h2 : u.creates ∈ allTaskKeys ts :=
          mem_allTaskKeys_of_mem ts w hw3
            (List.mem_cons_of_mem _ (by rw [hw2]; simp))
        exact hsplit.2.2 _ h1 h2
    · rcases List.mem_cons.mp hw with hw1 | hw3
      · have h1 : u.creates ∈ taskKeys t := by
          rw [← hw1]
          exact List.mem_cons_of_mem _ (by rw [hw2]; simp)
        have h2 : u.creates ∈ allTaskKeys ts :=
          mem_allTaskKeys_of_mem ts u hu2 (List.mem_cons_self _ _)
        exact hsplit.2.2 _ h1 h2
      · exact ih hsplit.2.1 u hu2 w hw3 hw2

theorem helper_getD_idem (tl : List CTask)
    (hnd : (allTaskKeys tl).Nodup) (d : String) :
    (dereference_alias_helper tl
        (some ((dereference_alias_helper tl (some d)).getD d))).getD
      ((dereference_alias_helper tl (some d)).getD d)
    = (dereference_alias_helper tl (some d)).getD d := by
  cases h : dereference_alias_helper tl (some d) with
  | none => simp [h]
  | some c =>
    simp only [Option.getD_some]
    cases h2 : dereference_alias_helper tl (some c) with
    | none => simp
    | some c2 =>
      exfalso
      obtain ⟨u, hu, _, huc⟩ := helper_some_facts tl d c h
      obtain ⟨w, hw, hwa, _⟩ := helper_some_facts tl c c2 h2
      exact nodup_keys_no_alias_creates tl hnd u hu w hw
        (huc.symm ▸ hwa)

theorem deref_task_idem_pt (tl2 tl : List CTask) (t : CTask)
    (hcomp : ∀ d, (dereference_alias_helper tl2
        (some ((dereference_alias_helper tl (some d)).getD d))).getD
          ((dereference_alias_helper tl (some d)).getD d)
      = (dereference_alias_helper tl (some d)).getD d) :
    deref_task tl2 (deref_task tl t) = deref_task tl t := by
  cases h : t.depends with
  | noneD => simp [deref_task, h]
  | one d => simp [deref_task, h, hcomp d]
  | many ds =>
    simp only [deref_task, h, List.map_map]
    refine congrArg (fun l => ({ t with depends := DependsV.many l } : CTask)) ?_
    refine List.map_congr_left ?_
    intro d _
    exact hcomp d

theorem map_fix {α : Type} {f : α → α} :
    ∀ l : List α, (∀ x ∈ l, f x = x) → l.map f = l := by
  intro l
  induction l with
  | nil => intro _; rfl
  | cons x xs ih =>
    intro h
    rw [List.map_cons, h x (List.mem_cons_self _ _),
      ih (fun y hy => h y (List.mem_cons_of_mem _ hy))]

/-- C8: the dereferenced depends entries are exactly the original entries
mapped through the alias table — in particular every entry matching a
task's alias is replaced by the canonical `creates` value of the first
task carrying that alias — and on a graph whose `creates` ids and aliases
are pairwise distinct (what every successful construction guarantees, C7)
dereferencing is idempotent: a second application of
`_dereference_depends_aliases` changes no depends value. -/
theorem dereference_replacement_idempotent (tl : List CTask)
    (hnd : (allTaskKeys tl).Nodup) :
    (∀ t : CTask, (deref_task tl t).depends_list
      = t.depends_list.map
          (fun d => (dereference_alias_helper tl (some d)).getD d)) ∧
    (∀ d c, dereference_alias_helper tl (some d) = some c →
      ∃ u ∈ tl, u.«alias» = some d ∧ u.creates = c) ∧
    dereference_depends_aliases (dereference_depends_aliases tl)
      = dereference_depends_aliases tl := by
  refine ⟨?_, fun d c h => helper_some_facts tl d c h, ?_⟩
  · intro t
    cases h : t.depends <;> simp [deref_task, CTask.depends_list, h]
  · show (tl.map (deref_task tl)).map
        (deref_task (tl.map (deref_task tl))) = tl.map (deref_task tl)
    apply map_fix
    intro t2 ht2
    rcases List.mem_map.mp ht2 with ⟨t, _, rfl⟩
    have hrho : ∀ d : String,
        (dereference_alias_helper (tl.map (deref_task tl))
            (some ((dereference_alias_helper tl (some d)).getD d))).getD
          ((dereference_alias_helper tl (some d)).getD d)
        = (dereference_alias_helper tl (some d)).getD d := by
      intro d
      rw [find_alias_map tl _ tl]
      exact helper_getD_idem tl hnd d
    exact deref_task_idem_pt (tl.map (deref_task tl)) tl t hrho

theorem dereference_replacement_idempotent_witness :
    (allTaskKeys [c5Task, c5TaskB]).Nodup ∧
    ((∀ t : CTask, (deref_task [c5Task, c5TaskB] t).depends_list
      = t.depends_list.map (fun d =>
          (dereference_alias_helper [c5Task, c5TaskB] (some d)).getD d)) ∧
    (∀ d c, dereference_alias_helper [c5Task, c5TaskB] (some d) = some c →
      ∃ u ∈ [c5Task, c5TaskB], u.«alias» = some d ∧ u.creates = c) ∧
    dereference_depends_aliases
        (dereference_depends_aliases [c5Task, c5TaskB])
      = dereference_depends_aliases [c5Task, c5TaskB]) :=
  ⟨by decide,
    dereference_replacement_idempotent [c5Task, c5TaskB] (by decide)⟩

end Workflow
